import Mathlib

/-!
# xoreos: engine functions, binary search, debug channels and UTF-16

A shallow embedding of
* `src/engines/kotor/script/functions_action.cpp` (`assignCommand`, `delayCommand`),
* `src/engines/nwn2/script/functions_conversation.cpp` (`speakString`,
  `speakStringByStrRef`, `speakOneLinerConversation`),
* `Common::binarySearch` as exercised by `tests/common/binsearch.cpp`,
* `Common::DebugManager` as declared and documented in `src/common/debugman.h`,
* the little-endian UTF-16 functions exercised by `tests/common/encoding_utf16le.cpp`.

Engine functions take their `FunctionContext` by reference and reach the module
through `_game`; both are carried in an explicit state record that every function
returns next to its outcome. A C++ exception is the `Except.error` outcome; the state
returned with it is the state at the point of the throw. A `float` is carried as the
rational number it stands for; the one float operation of the embedded sources, the
product in `delayCommand`, rounds its exact result to binary32.
-/

namespace Common

/-- Errors an engine function can end with. `exception` is a `Common::Exception` thrown
by the embedded source itself, with its message; the remaining constructors are the
failures of collaborators described in the specification's error taxonomy, plus the
read of a parameter index that the context does not have. -/
inductive Error where
  | exception (what : String)
  | typeMismatch
  | invalidScriptContext
  | outOfRange
  deriving DecidableEq, Repr

end Common

namespace Aurora.NWScript

/-- Pointer to a script object (`Aurora::NWScript::Object *`): `none` is the null
pointer, `some h` points to the object with handle `h`. -/
abbrev ObjectRef := Option Nat

/-- Modelled from the spec: `Aurora::NWScript::ScriptState` (declared outside the
embedded sources) is an opaque snapshot of a suspended script, its remaining
instruction pointer and its locals, with copy semantics. -/
structure ScriptState where
  offset : Nat
  locals : List Int
  deriving DecidableEq, Repr

/-- Modelled from the spec: `Aurora::NWScript::Variable` (declared outside the embedded
sources) is a tagged value of kind Int, Float, String, Object, Vector, EngineType,
Action (a script state) or Unset. A float is carried as the rational number it stands
for; arithmetic on floats rounds its result to binary32 (`Common.mulFloat`). -/
inductive Variable where
  | unset
  | int (value : Int)
  | float (value : ℚ)
  | string (value : String)
  | object (value : ObjectRef)
  | vector (x y z : ℚ)
  | engineType (value : Nat)
  | scriptState (value : ScriptState)
  deriving DecidableEq

namespace Variable

/-- Modelled from the spec: typed accessor, fails with TypeMismatch if the stored kind
is not Int. -/
def getInt : Variable → Except Common.Error Int
  | .int v => .ok v
  | _ => .error .typeMismatch

/-- Modelled from the spec: typed accessor, fails with TypeMismatch if the stored kind
is not Float. -/
def getFloat : Variable → Except Common.Error ℚ
  | .float v => .ok v
  | _ => .error .typeMismatch

/-- Modelled from the spec: typed accessor, fails with TypeMismatch if the stored kind
is not String. -/
def getString : Variable → Except Common.Error String
  | .string v => .ok v
  | _ => .error .typeMismatch

/-- Modelled from the spec: typed accessor, fails with TypeMismatch if the stored kind
is not Object. -/
def getObject : Variable → Except Common.Error ObjectRef
  | .object v => .ok v
  | _ => .error .typeMismatch

/-- Modelled from the spec: typed accessor, fails with TypeMismatch if the stored kind
is not a script state. -/
def getScriptState : Variable → Except Common.Error ScriptState
  | .scriptState v => .ok v
  | _ => .error .typeMismatch

end Variable

/-- Modelled from the spec: `Aurora::NWScript::FunctionContext` (declared outside the
embedded sources) holds the ordered parameters, the return slot, the caller and
triggerer object pointers and the originating script's name. -/
structure FunctionContext where
  params : List Variable
  returnValue : Variable
  caller : ObjectRef
  triggerer : ObjectRef
  scriptName : String
  deriving DecidableEq

namespace FunctionContext

/-- Read of `getParams()[n]`. The C++ subscript is unchecked; a read past the end of
the parameter list is modelled as the failure `outOfRange`. -/
def getParam (ctx : FunctionContext) (n : Nat) : Except Common.Error Variable :=
  match ctx.params[n]? with
  | some v => .ok v
  | none => .error .outOfRange

/-- Accessor `getCaller()`. -/
def getCaller (ctx : FunctionContext) : ObjectRef := ctx.caller

/-- Accessor `getTriggerer()`. -/
def getTriggerer (ctx : FunctionContext) : ObjectRef := ctx.triggerer

/-- Accessor `getScriptName()`. -/
def getScriptName (ctx : FunctionContext) : String := ctx.scriptName

end FunctionContext

end Aurora.NWScript

namespace Common

/-- A finite value of the C++ type `float` (IEEE 754 binary32) as produced by an
arithmetic operation: it stands for `± significand * 2 ^ exponent`, where `exponent` is
the exponent of the unit in the last place. -/
structure Binary32 where
  negative : Bool
  significand : Nat
  exponent : Int
  deriving DecidableEq, Repr

/-- The rational number a `Binary32` stands for. -/
def Binary32.toRat (v : Binary32) : ℚ :=
  (if v.negative then -1 else 1) * (v.significand : ℚ) * 2 ^ v.exponent

/-- Test `2 ^ e ≤ n / d` on natural numbers. -/
def pow2Le (e : Int) (n d : Nat) : Bool :=
  if 0 ≤ e then decide (d * 2 ^ e.toNat ≤ n) else decide (d ≤ n * 2 ^ (-e).toNat)

/-- Search, downward from `fuel - 126`, for the largest exponent `e` with
`2 ^ e ≤ n / d`; the search ends at `-126`, the exponent of the subnormal numbers. -/
def binadeFrom (n d : Nat) : Nat → Int
  | 0 => -126
  | fuel + 1 =>
    if pow2Le ((fuel : Int) - 125) n d then (fuel : Int) - 125 else binadeFrom n d fuel

/-- Exponent of the binade of `n / d` in binary32: the largest `e` in `-126 .. 127` with
`2 ^ e ≤ n / d`, and `-126` below the normal range. -/
def binade (n d : Nat) : Int := binadeFrom n d 253

/-- Quotient `n / d` rounded to the nearest natural number, a tie going to the even
one (the IEEE 754 default rounding). -/
def roundHalfEven (n d : Nat) : Nat :=
  if 2 * (n % d) < d then n / d
  else if d < 2 * (n % d) then n / d + 1
  else if n / d % 2 = 0 then n / d else n / d + 1

/-- Rounding of the real number `± n / d` to binary32: the significand has 24 bits, so
the unit in the last place of the binade `e` is `2 ^ (e - 23)`, and the quotient is
rounded to a multiple of it. -/
def roundToBinary32 (negative : Bool) (n d : Nat) : Binary32 :=
  let k : Int := binade n d - 23
  let m : Nat :=
    if 0 ≤ k then roundHalfEven n (d * 2 ^ k.toNat)
    else roundHalfEven (n * 2 ^ (-k).toNat) d
  ⟨negative, m, k⟩

/-- Product `f * g` of two `float` operands as C++ evaluates it: the exact product of
the two values, rounded to binary32. -/
def mulFloat (f g : ℚ) : Binary32 :=
  roundToBinary32 (decide (f.num * g.num < 0)) (f.num.natAbs * g.num.natAbs) (f.den * g.den)

/-- Conversion of a float to `uint32` as in `uint32 delay = f`: the fraction is dropped
(truncation toward zero) and the result is taken modulo `2 ^ 32`. -/
def floatToUint32 (v : Binary32) : Nat :=
  let magnitude : Nat :=
    if 0 ≤ v.exponent then v.significand * 2 ^ v.exponent.toNat
    else v.significand / 2 ^ (-v.exponent).toNat
  let truncated : Int := if v.negative then -(magnitude : Int) else (magnitude : Int)
  (truncated % 2 ^ 32).toNat

/-- The rational `q` is a finite binary32 value: `± m * 2 ^ j` or `± m / 2 ^ j` with a
significand `m` of at most 24 bits and the exponent in the range of the format. -/
def IsBinary32 (q : ℚ) : Prop :=
  ∃ m j : ℕ, m < 2 ^ 24 ∧
    ((j ≤ 104 ∧ |q| = (m : ℚ) * 2 ^ j) ∨ (j ≤ 149 ∧ |q| * 2 ^ j = (m : ℚ)))

/-- Conversion `(uint32) i` of a signed 32-bit integer. -/
def intToUint32 (i : Int) : Nat :=
  (i % 2 ^ 32).toNat

end Common

namespace Engines.KotOR

open Aurora.NWScript

/-- Modelled from the spec: a deferred command is a script name, a script state, a
target and a triggerer object and a delay in milliseconds. -/
structure DeferredCommand where
  script : String
  state : ScriptState
  target : ObjectRef
  triggerer : ObjectRef
  delay : Nat
  deriving DecidableEq, Repr

/-- Modelled from the spec: the part of `KotOR::Module` the action functions reach, the
deferred execution queue in enqueue order. `delayScriptCalls` counts the calls made to
`delayScript`, whether they succeed or not. -/
structure Module where
  deferred : List DeferredCommand
  delayScriptCalls : Nat
  deriving DecidableEq, Repr

/-- Modelled from the spec: `Module::delayScript(scriptName, state, target, triggerer,
delayMs)` (defined outside the embedded sources) enqueues a deferred command at the end
of the queue and fails with InvalidScriptContext if the script name is empty. -/
def Module.delayScript (m : Module) (script : String) (state : ScriptState)
    (target triggerer : ObjectRef) (delay : Nat) : Except Common.Error Unit × Module :=
  let m1 : Module := { m with delayScriptCalls := m.delayScriptCalls + 1 }
  if script = "" then
    (.error .invalidScriptContext, m1)
  else
    (.ok (), { m1 with deferred := m1.deferred ++ [⟨script, state, target, triggerer, delay⟩] })

/-- State an engine function of `KotOR::Functions` runs on: the function context passed
by reference and the module behind `_game->getModule()`. -/
structure World where
  ctx : FunctionContext
  module : Module
  deriving DecidableEq

namespace Functions

/-- Modelled from the spec: `Functions::getParamObject(ctx, n)` is declared in
`functions.h`, its body is outside the embedded sources; it yields the object held by
parameter `n`, read through the typed accessor `getObject`. -/
def getParamObject (ctx : FunctionContext) (n : Nat) : Except Common.Error ObjectRef :=
  match ctx.getParam n with
  | .ok v => v.getObject
  | .error e => .error e

/-- Embedding of `Functions::assignCommand`. -/
def assignCommand (w : World) : Except Common.Error Unit × World :=
  let script := w.ctx.getScriptName
  if script = "" then
    (.error (.exception "Functions::assignCommand(): Script needed"), w)
  else
    match w.ctx.getParam 1 with
    | .error e => (.error e, w)
    | .ok p1 =>
      match p1.getScriptState with
      | .error e => (.error e, w)
      | .ok state =>
        match getParamObject w.ctx 0 with
        | .error e => (.error e, w)
        | .ok target =>
          let r := w.module.delayScript script state target w.ctx.getTriggerer 0
          (r.1, { w with module := r.2 })

/-- Embedding of `Functions::delayCommand`. -/
def delayCommand (w : World) : Except Common.Error Unit × World :=
  let script := w.ctx.getScriptName
  if script = "" then
    (.error (.exception "Functions::assignCommand(): Script needed"), w)
  else
    match w.ctx.getParam 0 with
    | .error e => (.error e, w)
    | .ok p0 =>
      match p0.getFloat with
      | .error e => (.error e, w)
      | .ok f =>
        let delay := Common.floatToUint32 (Common.mulFloat f 1000)
        match w.ctx.getParam 1 with
        | .error e => (.error e, w)
        | .ok p1 =>
          match p1.getScriptState with
          | .error e => (.error e, w)
          | .ok state =>
            let r := w.module.delayScript script state w.ctx.getCaller w.ctx.getTriggerer delay
            (r.1, { w with module := r.2 })

end Functions

end Engines.KotOR

namespace Engines.NWN2

open Aurora.NWScript

/-- What a live object has been made to say: a call of `Object::speakString(text,
volume)` or of `Object::speakOneLiner(dlg, tokenTarget)` on the object `speaker`. -/
inductive SpeechEvent where
  | speakString (speaker : Nat) (text : String) (volume : Nat)
  | speakOneLiner (speaker : Nat) (dlg : String) (tokenTarget : Option Nat)
  deriving DecidableEq, Repr

/-- State an engine function of `NWN2::Functions` runs on: the function context passed
by reference, the handles that denote live NWN2 objects, the talk table behind
`TalkMan` and the record of what objects have been made to say. -/
structure World where
  ctx : FunctionContext
  objects : List Nat
  talkTable : List (Nat × String)
  spoken : List SpeechEvent
  deriving DecidableEq

namespace ObjectContainer

/-- Modelled from the spec: `ObjectContainer::toObject` (defined outside the embedded
sources) is the liveness check on an object pointer; it yields the NWN2 object the
pointer denotes, and null (`none`) for the null pointer and for a handle that denotes
no live NWN2 object. -/
def toObject (objects : List Nat) (o : ObjectRef) : Option Nat :=
  match o with
  | none => none
  | some h => if h ∈ objects then some h else none

end ObjectContainer

/-- Modelled from the spec: `TalkMan.getString(strRef)` (defined outside the embedded
sources) resolves a string reference to its localized string, the empty string when
the reference is unknown. -/
def TalkManager.getString (talkTable : List (Nat × String)) (strRef : Nat) : String :=
  match talkTable.lookup strRef with
  | some s => s
  | none => ""

namespace Functions

/-- Modelled from the spec: `Functions::getParamObject(ctx, n)` (defined outside the
embedded sources) yields the object held by parameter `n`, read through the typed
accessor `getObject`. -/
def getParamObject (ctx : FunctionContext) (n : Nat) : Except Common.Error ObjectRef :=
  match ctx.getParam n with
  | .ok v => v.getObject
  | .error e => .error e

/-- Embedding of `Functions::speakString`. The two arguments of the call are read in
the order they are written. -/
def speakString (w : World) : Except Common.Error Unit × World :=
  match ObjectContainer.toObject w.objects w.ctx.getCaller with
  | none => (.ok (), w)
  | some object =>
    match w.ctx.getParam 0 with
    | .error e => (.error e, w)
    | .ok p0 =>
      match p0.getString with
      | .error e => (.error e, w)
      | .ok text =>
        match w.ctx.getParam 1 with
        | .error e => (.error e, w)
        | .ok p1 =>
          match p1.getInt with
          | .error e => (.error e, w)
          | .ok volume =>
            (.ok (), { w with spoken := w.spoken ++
              [.speakString object text (Common.intToUint32 volume)] })

/-- Embedding of `Functions::speakStringByStrRef`. -/
def speakStringByStrRef (w : World) : Except Common.Error Unit × World :=
  match ObjectContainer.toObject w.objects w.ctx.getCaller with
  | none => (.ok (), w)
  | some object =>
    match w.ctx.getParam 0 with
    | .error e => (.error e, w)
    | .ok p0 =>
      match p0.getInt with
      | .error e => (.error e, w)
      | .ok i0 =>
        let strRef := Common.intToUint32 i0
        match w.ctx.getParam 1 with
        | .error e => (.error e, w)
        | .ok p1 =>
          match p1.getInt with
          | .error e => (.error e, w)
          | .ok i1 =>
            let volume := Common.intToUint32 i1
            (.ok (), { w with spoken := w.spoken ++
              [.speakString object (TalkManager.getString w.talkTable strRef) volume] })

/-- Embedding of `Functions::speakOneLinerConversation`. -/
def speakOneLinerConversation (w : World) : Except Common.Error Unit × World :=
  match ObjectContainer.toObject w.objects w.ctx.getCaller with
  | none => (.ok (), w)
  | some object =>
    match w.ctx.getParam 0 with
    | .error e => (.error e, w)
    | .ok p0 =>
      match p0.getString with
      | .error e => (.error e, w)
      | .ok dlg =>
        match getParamObject w.ctx 1 with
        | .error e => (.error e, w)
        | .ok o1 =>
          let tokenTarget := ObjectContainer.toObject w.objects o1
          (.ok (), { w with spoken := w.spoken ++ [.speakOneLiner object dlg tokenTarget] })

end Functions

end Engines.NWN2

namespace Common

/-- Entry of a binary search map, `Common::BinSearchValue<TKey, TValue>`: a key and the
value paired with it. -/
structure BinSearchValue (TKey TValue : Type) where
  key : TKey
  value : TValue
  deriving DecidableEq, Repr

/-- Search loop of `binarySearch` on the half-open index range from `low` up to `high`:
the middle entry is compared with the key, an equal key ends the search with that
entry, a smaller one moves `low` past the middle and a larger one moves `high` down to
the middle. An empty range ends the search with no entry. -/
def binarySearchLoop {TKey TValue : Type} [LinearOrder TKey]
    (map : List (BinSearchValue TKey TValue)) (key : TKey) (low high : Nat) :
    Option (BinSearchValue TKey TValue) :=
  if low < high then
    let mid := low + (high - low) / 2
    match map[mid]? with
    | none => none
    | some entry =>
      if entry.key = key then some entry
      else if entry.key < key then binarySearchLoop map key (mid + 1) high
      else binarySearchLoop map key low mid
  else none
termination_by high - low
decreasing_by all_goals (simp_wf; omega)

/-- Modelled from the spec: `Common::binarySearch(map, size, key)` lives in
`src/common/binsearch.h`, outside the embedded sources; only its unit test is at hand.
It is the generic binary search over the first `size` entries of a map sorted by key,
and returns the entry found (a non-null pointer into the map) or null (`none`). -/
def binarySearch {TKey TValue : Type} [LinearOrder TKey]
    (map : List (BinSearchValue TKey TValue)) (size : Nat) (key : TKey) :
    Option (BinSearchValue TKey TValue) :=
  binarySearchLoop map key 0 size

/-- The map of the unit test, `kTestBinSearch`. -/
def kTestBinSearch : List (BinSearchValue Nat Nat) :=
  [⟨5, 23⟩, ⟨6, 42⟩, ⟨7, 60⟩]

/-- All debug channels, with the two special values that close the enumeration. -/
inductive DebugChannel where
  | kDebugGraphics
  | kDebugSound
  | kDebugVideo
  | kDebugEvents
  | kDebugScripts
  | kDebugGLAPI
  | kDebugGLWindow
  | kDebugGLShader
  | kDebugGL3rd
  | kDebugGLApp
  | kDebugGLOther
  | kDebugEngineGraphics
  | kDebugEngineSound
  | kDebugEngineVideo
  | kDebugEngineEvents
  | kDebugEngineScripts
  | kDebugEngineLogic
  | kDebugChannelCount
  | kDebugChannelAll
  deriving DecidableEq, Repr

/-- Numeric value of an enumerator of `DebugChannel`. -/
def DebugChannel.toNat : DebugChannel → Nat
  | .kDebugGraphics => 0
  | .kDebugSound => 1
  | .kDebugVideo => 2
  | .kDebugEvents => 3
  | .kDebugScripts => 4
  | .kDebugGLAPI => 5
  | .kDebugGLWindow => 6
  | .kDebugGLShader => 7
  | .kDebugGL3rd => 8
  | .kDebugGLApp => 9
  | .kDebugGLOther => 10
  | .kDebugEngineGraphics => 11
  | .kDebugEngineSound => 12
  | .kDebugEngineVideo => 13
  | .kDebugEngineEvents => 14
  | .kDebugEngineScripts => 15
  | .kDebugEngineLogic => 16
  | .kDebugChannelCount => 17
  | .kDebugChannelAll => 18

namespace DebugManager

/-- The constant `DebugManager::kMaxVerbosityLevel`. -/
def kMaxVerbosityLevel : Nat := 9

/-- A debug channel, `DebugManager::Channel`: its name, its description and the current
level at which it is enabled. -/
structure Channel where
  name : String
  description : String
  level : Nat
  deriving DecidableEq, Repr

end DebugManager

/-- The debug manager: its array `_channels` of debug channels, indexed by channel
ID. -/
structure DebugManager where
  _channels : List DebugManager.Channel
  deriving DecidableEq, Repr

namespace DebugManager

/-- Modelled from the spec: `DebugManager::getVerbosityLevel(channel)` is declared in
`debugman.h`, its body is outside the embedded sources; it returns the verbosity level
of this channel, the field `level` of `_channels[channel]`, and 0 (disabled) for an ID
that denotes no channel. -/
def getVerbosityLevel (m : DebugManager) (channel : DebugChannel) : Nat :=
  match m._channels[channel.toNat]? with
  | some c => c.level
  | none => 0

/-- Modelled from the spec: `DebugManager::isEnabled(channel, level)` is declared in
`debugman.h`, its body is outside the embedded sources; by the class documentation a
message is shown only when its channel is enabled at a verbosity level equal to or
higher than the message's verbosity level. -/
def isEnabled (m : DebugManager) (channel : DebugChannel) (level : Nat) : Bool :=
  decide (m.getVerbosityLevel channel ≥ level)

end DebugManager

end Common

/-! ## Sample states

Concrete states on which the statements below are instantiated. -/

namespace Engines.KotOR

open Aurora.NWScript

/-- A call that did not originate from a named script: empty script name, no
parameters, one command already waiting in the queue. -/
def worldNoScript : World :=
  { ctx := { params := [], returnValue := .unset, caller := some 1, triggerer := some 2,
             scriptName := "" },
    module := { deferred := [⟨"k_old", ⟨0, []⟩, some 3, none, 250⟩], delayScriptCalls := 1 } }

/-- A well-formed call of `AssignCommand(object 7, action)` from the script `k_ai`. -/
def worldAssign : World :=
  { ctx := { params := [.object (some 7), .scriptState ⟨4, [1]⟩], returnValue := .unset,
             caller := some 1, triggerer := some 2, scriptName := "k_ai" },
    module := { deferred := [], delayScriptCalls := 0 } }

/-- A well-formed call of `DelayCommand(2.0, action)` from the script `k_ai`. -/
def worldDelay : World :=
  { ctx := { params := [.float 2, .scriptState ⟨4, [1]⟩], returnValue := .unset,
             caller := some 1, triggerer := some 2, scriptName := "k_ai" },
    module := { deferred := [], delayScriptCalls := 0 } }

/-- A call from the script `k_ai` whose two parameters are an integer and a string. -/
def worldWrongKind : World :=
  { ctx := { params := [.int 5, .string "x"], returnValue := .unset,
             caller := some 1, triggerer := some 2, scriptName := "k_ai" },
    module := { deferred := [], delayScriptCalls := 0 } }

end Engines.KotOR

namespace Engines.NWN2

/-- A call without parameters whose caller, handle 9, denotes no live NWN2 object. -/
def worldStaleCaller : World :=
  { ctx := { params := [], returnValue := .unset, caller := some 9, triggerer := none,
             scriptName := "gb_speak" },
    objects := [1, 2],
    talkTable := [(100, "Well met.")],
    spoken := [] }

end Engines.NWN2

namespace Common

/-- A map is sorted by strictly increasing key. -/
def SortedByKey {TKey TValue : Type} [LinearOrder TKey]
    (map : List (BinSearchValue TKey TValue)) : Prop :=
  List.Pairwise (fun a b => a.key < b.key) map

instance instDecidableSortedByKey {TKey TValue : Type} [LinearOrder TKey]
    (map : List (BinSearchValue TKey TValue)) : Decidable (SortedByKey map) :=
  inferInstanceAs
    (Decidable (List.Pairwise (fun (a b : BinSearchValue TKey TValue) => a.key < b.key) map))

/-- The scenario of the class documentation of `DebugManager`: the first channel is
enabled at verbosity level 3, the second one is at level 0, that is, disabled. -/
def documentedManager : DebugManager :=
  { _channels := [⟨"GGraphics", "Global graphics", 3⟩, ⟨"GSound", "Global sound", 0⟩] }

end Common

namespace Engines.KotOR

/-- A call that did not originate from a named script and whose parameters are unfit
for both action functions: parameter 0 is a string, parameter 1 is absent. -/
def worldNoScriptWrongKind : World :=
  { ctx := { params := [.string "x"], returnValue := .unset, caller := some 1,
             triggerer := none, scriptName := "" },
    module := { deferred := [], delayScriptCalls := 0 } }

end Engines.KotOR

namespace Common

namespace DebugManager

/-- Modelled from the spec: the constructor `DebugManager()` (defined outside the
embedded sources) sets up the debug channels of the enumeration `DebugChannel`, under
the names and descriptions the enumeration documents, each at verbosity level 0. -/
def new : DebugManager :=
  { _channels :=
      [⟨"GGraphics", "Global, non-engine graphics", 0⟩,
       ⟨"GSound", "Global, non-engine sound", 0⟩,
       ⟨"GVideo", "Global, non-engine video (movies)", 0⟩,
       ⟨"GEvents", "Global, non-engine events", 0⟩,
       ⟨"GScripts", "Global, non-engine scripts", 0⟩,
       ⟨"GGLAPI", "OpenGL debug message generated by the GL", 0⟩,
       ⟨"GGLWindow", "OpenGL debug message generated by the windowing system", 0⟩,
       ⟨"GGLShader", "OpenGL debug message generated by the shader compiler", 0⟩,
       ⟨"GGL3rd", "OpenGL debug message generated by third party middleware", 0⟩,
       ⟨"GGLApp", "OpenGL debug message generated by the application", 0⟩,
       ⟨"GGLOther", "OpenGL debug message generated by other sources", 0⟩,
       ⟨"EGraphics", "Engine graphics", 0⟩,
       ⟨"ESound", "Engine sound", 0⟩,
       ⟨"EVideo", "Engine video", 0⟩,
       ⟨"EEvents", "Engine events", 0⟩,
       ⟨"EScripts", "Engine scripts", 0⟩,
       ⟨"ELogic", "Engine game logic", 0⟩] }

/-- Store of a verbosity level into `_channels[index]`: the level is capped at
`kMaxVerbosityLevel`; an index without a channel is ignored. -/
def setChannelLevel (m : DebugManager) (index : Nat) (level : Nat) : DebugManager :=
  match m._channels[index]? with
  | none => m
  | some c =>
    let capped : Channel := { c with level := min level kMaxVerbosityLevel }
    { m with _channels := m._channels.set index capped }

/-- Store of a verbosity level into every channel, capped at `kMaxVerbosityLevel`. -/
def setAllLevels (m : DebugManager) (level : Nat) : DebugManager :=
  let cap : Channel → Channel := fun c => { c with level := min level kMaxVerbosityLevel }
  { m with _channels := m._channels.map cap }

/-- Modelled from the spec: `DebugManager::setVerbosityLevel(channel, level)` by ID is
declared in `debugman.h`, its body is outside the embedded sources; it sets the
verbosity level of this channel, within the documented range 0 to
`kMaxVerbosityLevel`, of all channels for `kDebugChannelAll`, and of none for
`kDebugChannelCount`. -/
def setVerbosityLevel (m : DebugManager) (channel : DebugChannel) (level : Nat) :
    DebugManager :=
  if channel = .kDebugChannelAll then
    m.setAllLevels level
  else if channel.toNat ≥ DebugChannel.kDebugChannelCount.toNat then
    m
  else
    m.setChannelLevel channel.toNat level

/-- The characters of a name in lower case, the form under which the channel map
compares names (`UString::iless`). -/
def lowerCase (name : String) : List Char :=
  name.data.map Char.toLower

/-- Index of the channel of that name in `_channels`, names compared without regard to
case. -/
def findChannel (m : DebugManager) (name : String) : Option Nat :=
  m._channels.findIdx? (fun c => lowerCase c.name == lowerCase name)

/-- Modelled from the spec: `DebugManager::setVerbosityLevel(channel, level)` by name
is declared in `debugman.h`, its body is outside the embedded sources; it sets the
verbosity level of the channel of that name, of all channels for the name `all`, and
of none for a name no channel has. -/
def setVerbosityLevelByName (m : DebugManager) (channel : String) (level : Nat) :
    DebugManager :=
  if lowerCase channel = ['a', 'l', 'l'] then
    m.setAllLevels level
  else
    match m.findChannel channel with
    | none => m
    | some index => m.setChannelLevel index level

/-- Every channel of the manager is at a verbosity level of at most
`kMaxVerbosityLevel`. -/
def LevelsInRange (m : DebugManager) : Prop :=
  ∀ c ∈ m._channels, c.level ≤ kMaxVerbosityLevel

/-- A call of `setVerbosityLevel`, by channel ID or by channel name, with its level. -/
inductive Call where
  | byID (channel : DebugChannel) (level : Nat)
  | byName (channel : String) (level : Nat)

/-- Effect of one call of `setVerbosityLevel` on the debug manager. -/
def Call.apply (m : DebugManager) : Call → DebugManager
  | .byID channel level => m.setVerbosityLevel channel level
  | .byName channel level => m.setVerbosityLevelByName channel level

/-- Effect of a sequence of calls of `setVerbosityLevel`, first call first. -/
def applyCalls (m : DebugManager) (calls : List Call) : DebugManager :=
  calls.foldl Call.apply m

/-- A sequence of calls that goes past the range: all channels to level 12 by name,
then one channel to the largest `uint32` by ID. -/
def sampleCalls : List Call :=
  [.byName "ALL" 12, .byID .kDebugEngineLogic 4294967295, .byName "gsound" 3]

end DebugManager

end Common

namespace Common

/-- The two bytes of a 16-bit value, low byte first. -/
def writeUint16LE (value : Nat) : List Nat :=
  [value % 256, value / 256 % 256]

/-- The UTF-16 code units of a character: the codepoint itself in the Basic Multilingual
Plane, a surrogate pair above it. -/
def utf16Units (c : Char) : List Nat :=
  if c.toNat < 0x10000 then
    [c.toNat]
  else
    [0xD800 + (c.toNat - 0x10000) / 0x400, 0xDC00 + (c.toNat - 0x10000) % 0x400]

/-- Characters as little-endian UTF-16 bytes, without terminator. -/
def encodeCharsUTF16LE : List Char → List Nat
  | [] => []
  | c :: rest => (utf16Units c).flatMap writeUint16LE ++ encodeCharsUTF16LE rest

/-- Modelled from the spec: the encoding of a string as little-endian UTF-16, without
terminator (the test data `stringData0` up to its terminating 0). -/
def encodeUTF16LE (s : String) : List Nat :=
  encodeCharsUTF16LE s.data

/-- The 16-bit little-endian values read from a byte stream up to, and without, the
first value 0; the end of the stream ends the read as well. -/
def readUnitsLE : List Nat → List Nat
  | low :: high :: rest =>
    if low + 256 * high = 0 then [] else (low + 256 * high) :: readUnitsLE rest
  | _ => []

/-- The characters a sequence of UTF-16 code units stands for; a surrogate that is not
part of a pair makes the conversion fail. -/
def decodeUTF16 : List Nat → Option (List Char)
  | [] => some []
  | unit :: rest =>
    if 0xD800 ≤ unit ∧ unit < 0xDC00 then
      match rest with
      | [] => none
      | low :: rest2 =>
        if 0xDC00 ≤ low ∧ low < 0xE000 then
          (decodeUTF16 rest2).map
            (fun cs => Char.ofNat (0x10000 + (unit - 0xD800) * 0x400 + (low - 0xDC00)) :: cs)
        else none
    else if 0xDC00 ≤ unit ∧ unit < 0xE000 then
      none
    else
      (decodeUTF16 rest).map (fun cs => Char.ofNat unit :: cs)

/-- Modelled from the spec: `Common::readString(stream, kEncodingUTF16LE)` is defined
outside the embedded sources; it reads a little-endian UTF-16 string from the stream up
to the terminating 0 and leaves what follows unread. `none` is a failed conversion. -/
def readStringUTF16LE (stream : List Nat) : Option String :=
  (decodeUTF16 (readUnitsLE stream)).map String.mk

/-- The test data `stringData0X`: the example string, its terminating 0 and garbage. -/
def stringData0X : List Nat :=
  [70, 0x00, 0xF6, 0x00, 0xF6, 0x00, 98, 0x00, 0xE4, 0x00, 114, 0x00, 0, 0, 120, 0x00]

/-- The test constant `stringUString`: Foobar, o and a with diaereses. -/
def stringUString : String := "F\u00f6\u00f6b\u00e4r"

end Common

namespace Common

/-- The float `0.01f`: the binary32 value nearest to one hundredth, `10737418 / 2 ^ 30`. -/
def floatHundredth : ℚ := { num := 5368709, den := 536870912 }

/-- The largest float below the real number one thousandth, `8589934 / 2 ^ 33`. -/
def floatBelowThousandth : ℚ := { num := 4294967, den := 4294967296 }

end Common

namespace Engines.KotOR

/-- A call of `delayCommand` with a delay of `seconds`, by the script `k_ai`, on an
empty queue. -/
def worldDelayOf (seconds : ℚ) : World :=
  { ctx := { params := [.float seconds, .scriptState ⟨4, [1]⟩], returnValue := .unset,
             caller := some 1, triggerer := some 2, scriptName := "k_ai" },
    module := { deferred := [], delayScriptCalls := 0 } }

end Engines.KotOR

/-! ## Deferred commands: `assignCommand` and `delayCommand` -/

namespace Engines.KotOR.Functions

open Aurora.NWScript

/-- C1: with an empty originating script name, `assignCommand` and `delayCommand` both
end with an error, and both leave the module as it was: nothing is enqueued and the
count of calls made to `delayScript` does not move, whatever the parameters, the caller
and the triggerer are. -/
theorem emptyScriptName_fails_without_delayScript (w : World)
    (h : w.ctx.scriptName = "") :
    ((∃ e, (assignCommand w).1 = .error e) ∧ (assignCommand w).2.module = w.module) ∧
    ((∃ e, (delayCommand w).1 = .error e) ∧ (delayCommand w).2.module = w.module) := by
  simp [assignCommand, delayCommand, FunctionContext.getScriptName, h]

/-- C2: with a non-empty script name, an object in parameter 0 and a script state in
parameter 1, `assignCommand` succeeds and appends exactly one deferred command to the
queue: the context's script name, parameter 1's script state, the object held by
parameter 0 as target, the context's triggerer and a delay of 0 ms. -/
theorem assignCommand_enqueues (w : World) (target : ObjectRef) (state : ScriptState)
    (hname : w.ctx.scriptName ≠ "")
    (h0 : w.ctx.params[0]? = some (.object target))
    (h1 : w.ctx.params[1]? = some (.scriptState state)) :
    assignCommand w =
      (.ok (), { w with module :=
        { deferred := w.module.deferred ++
            [⟨w.ctx.scriptName, state, target, w.ctx.triggerer, 0⟩],
          delayScriptCalls := w.module.delayScriptCalls + 1 } }) := by
  simp [assignCommand, getParamObject, Module.delayScript, FunctionContext.getScriptName,
    FunctionContext.getParam, FunctionContext.getTriggerer, Variable.getScriptState,
    Variable.getObject, hname, h0, h1]

/-- C3: with a non-empty script name, a float in parameter 0 and a script state in
parameter 1, `delayCommand` succeeds and appends exactly one deferred command to the
queue: the context's script name, parameter 1's script state, the context's caller as
target and the context's triggerer. -/
theorem delayCommand_enqueues (w : World) (seconds : ℚ) (state : ScriptState)
    (hname : w.ctx.scriptName ≠ "")
    (h0 : w.ctx.params[0]? = some (.float seconds))
    (h1 : w.ctx.params[1]? = some (.scriptState state)) :
    ∃ delay, delayCommand w =
      (.ok (), { w with module :=
        { deferred := w.module.deferred ++
            [⟨w.ctx.scriptName, state, w.ctx.caller, w.ctx.triggerer, delay⟩],
          delayScriptCalls := w.module.delayScriptCalls + 1 } }) := by
  refine ⟨Common.floatToUint32 (Common.mulFloat seconds 1000), ?_⟩
  simp [delayCommand, Module.delayScript, FunctionContext.getScriptName,
    FunctionContext.getParam, FunctionContext.getTriggerer, FunctionContext.getCaller,
    Variable.getScriptState, Variable.getFloat, hname, h0, h1]

/-- C4: with a non-empty script name, `assignCommand` fails with a type mismatch when
parameter 1 holds a value that is not a script state, and `delayCommand` fails with a
type mismatch when parameter 0 holds a value that is not a float or parameter 1 holds a
value that is not a script state; in each case the module is left as it was, so no
deferred command is enqueued. -/
theorem wrongKind_fails_with_typeMismatch (w : World) (hname : w.ctx.scriptName ≠ "") :
    (∀ p1, w.ctx.params[1]? = some p1 → (∀ state, p1 ≠ .scriptState state) →
      assignCommand w = (.error .typeMismatch, w)) ∧
    (∀ p0, w.ctx.params[0]? = some p0 → (∀ seconds, p0 ≠ .float seconds) →
      delayCommand w = (.error .typeMismatch, w)) ∧
    (∀ p1, w.ctx.params[1]? = some p1 → (∀ state, p1 ≠ .scriptState state) →
      delayCommand w = (.error .typeMismatch, w)) := by
  refine ⟨?_, ?_, ?_⟩
  · intro p1 h1 hkind
    cases p1 <;>
      simp_all [assignCommand, FunctionContext.getScriptName, FunctionContext.getParam,
        Variable.getScriptState]
  · intro p0 h0 hkind
    cases p0 <;>
      simp_all [delayCommand, FunctionContext.getScriptName, FunctionContext.getParam,
        Variable.getFloat]
  · intro p1 h1 hkind
    have hlen : 0 < w.ctx.params.length := by
      have := (List.getElem?_eq_some_iff.mp h1).1
      omega
    obtain ⟨p0, h0⟩ : ∃ p0, w.ctx.params[0]? = some p0 :=
      ⟨w.ctx.params[0], List.getElem?_eq_getElem hlen⟩
    cases p0 <;> cases p1 <;>
      simp_all [delayCommand, FunctionContext.getScriptName, FunctionContext.getParam,
        Variable.getFloat, Variable.getScriptState]

/-- C5: `assignCommand` and `delayCommand` leave the function context as it was, whether
they succeed or fail: the return slot, the parameters, the caller, the triggerer and the
script name after the call are those before it. -/
theorem context_unchanged (w : World) :
    (assignCommand w).2.ctx = w.ctx ∧ (delayCommand w).2.ctx = w.ctx := by
  constructor
  · simp only [assignCommand]
    split_ifs
    · rfl
    · repeat (first | rfl | split)
  · simp only [delayCommand]
    split_ifs
    · rfl
    · repeat (first | rfl | split)

/-- When parameter 0 holds a value that is not an object, reading the target fails:
`assignCommand` ends with a type mismatch and leaves the state as it was. -/
theorem assignCommand_target_wrongKind (w : World) (p0 : Variable) (state : ScriptState)
    (hname : w.ctx.scriptName ≠ "")
    (h0 : w.ctx.params[0]? = some p0) (hkind : ∀ target, p0 ≠ .object target)
    (h1 : w.ctx.params[1]? = some (.scriptState state)) :
    assignCommand w = (.error .typeMismatch, w) := by
  cases p0 <;>
    simp_all [assignCommand, getParamObject, FunctionContext.getScriptName,
      FunctionContext.getParam, Variable.getScriptState, Variable.getObject]

/-- Witness of C1 on `worldNoScript`: the script name is empty, and both functions
leave the module, with its one waiting command, as it was. -/
theorem emptyScriptName_fails_without_delayScript_witness :
    worldNoScript.ctx.scriptName = "" ∧
    (assignCommand worldNoScript).2.module = worldNoScript.module ∧
    (delayCommand worldNoScript).2.module = worldNoScript.module :=
  ⟨rfl, (emptyScriptName_fails_without_delayScript worldNoScript rfl).1.2,
    (emptyScriptName_fails_without_delayScript worldNoScript rfl).2.2⟩

/-- Witness of C2 on `worldAssign`: the command enqueued for the script `k_ai` targets
object 7, the object of parameter 0, with a delay of 0 ms. -/
theorem assignCommand_enqueues_witness :
    worldAssign.ctx.scriptName ≠ "" ∧
    assignCommand worldAssign =
      (.ok (), { worldAssign with module :=
        { deferred := [⟨"k_ai", ⟨4, [1]⟩, some 7, some 2, 0⟩], delayScriptCalls := 1 } }) :=
  ⟨by decide, assignCommand_enqueues worldAssign (some 7) ⟨4, [1]⟩ (by decide) rfl rfl⟩

/-- Witness of C3 on `worldDelay`: the command enqueued for the script `k_ai` targets
object 1, the caller. -/
theorem delayCommand_enqueues_witness :
    worldDelay.ctx.scriptName ≠ "" ∧
    ∃ delay, delayCommand worldDelay =
      (.ok (), { worldDelay with module :=
        { deferred := [⟨"k_ai", ⟨4, [1]⟩, some 1, some 2, delay⟩], delayScriptCalls := 1 } }) :=
  ⟨by decide, delayCommand_enqueues worldDelay 2 ⟨4, [1]⟩ (by decide) rfl rfl⟩

/-- Witness of C4 on `worldWrongKind`, whose parameters are an integer and a string:
both functions fail with a type mismatch and leave the state as it was. -/
theorem wrongKind_fails_with_typeMismatch_witness :
    worldWrongKind.ctx.scriptName ≠ "" ∧
    assignCommand worldWrongKind = (.error .typeMismatch, worldWrongKind) ∧
    delayCommand worldWrongKind = (.error .typeMismatch, worldWrongKind) :=
  ⟨by decide,
    (wrongKind_fails_with_typeMismatch worldWrongKind (by decide)).1 (.string "x") rfl
      (fun _ h => nomatch h),
    (wrongKind_fails_with_typeMismatch worldWrongKind (by decide)).2.1 (.int 5) rfl
      (fun _ h => nomatch h)⟩

end Engines.KotOR.Functions

/-! ## Conversation functions -/

namespace Engines.NWN2.Functions

open Aurora.NWScript

/-- C6: when the caller does not resolve to a live NWN2 object, `speakString`,
`speakStringByStrRef` and `speakOneLinerConversation` return normally and leave the
state as it was, so no object is made to speak; this holds for every parameter list,
also an empty one or one with values of the wrong kind, as no parameter is read. -/
theorem speak_returns_when_caller_not_live (w : World)
    (h : ObjectContainer.toObject w.objects w.ctx.caller = none) :
    speakString w = (.ok (), w) ∧ speakStringByStrRef w = (.ok (), w) ∧
    speakOneLinerConversation w = (.ok (), w) := by
  simp [speakString, speakStringByStrRef, speakOneLinerConversation,
    FunctionContext.getCaller, h]

/-- Witness of C6 on `worldStaleCaller`, whose caller is not a live object and whose
parameter list is empty. -/
theorem speak_returns_when_caller_not_live_witness :
    ObjectContainer.toObject worldStaleCaller.objects worldStaleCaller.ctx.caller = none ∧
    speakString worldStaleCaller = (.ok (), worldStaleCaller) ∧
    speakStringByStrRef worldStaleCaller = (.ok (), worldStaleCaller) ∧
    speakOneLinerConversation worldStaleCaller = (.ok (), worldStaleCaller) :=
  ⟨by decide, speak_returns_when_caller_not_live worldStaleCaller (by decide)⟩

end Engines.NWN2.Functions

/-! ## Binary search -/

namespace Common

/-- Keys of a map sorted by key increase with the index. -/
theorem SortedByKey.key_lt {TKey TValue : Type} [LinearOrder TKey]
    {map : List (BinSearchValue TKey TValue)} (h : SortedByKey map)
    {i j : Nat} (hi : i < map.length) (hj : j < map.length) (hij : i < j) :
    map[i].key < map[j].key :=
  List.pairwise_iff_getElem.mp h i j hi hj hij

/-- The search loop only ever returns an entry of the map that carries the key. -/
theorem binarySearchLoop_some {TKey TValue : Type} [LinearOrder TKey]
    (map : List (BinSearchValue TKey TValue)) (key : TKey)
    (low high : Nat) (e : BinSearchValue TKey TValue)
    (h : binarySearchLoop map key low high = some e) : e ∈ map ∧ e.key = key := by
  induction low, high using binarySearchLoop.induct map key with
  | case1 low high hlt mid hnone =>
    rw [binarySearchLoop] at h
    simp [hlt, mid, hnone] at h
  | case2 low high hlt mid entry hsome hkey =>
    rw [binarySearchLoop] at h
    simp only [hlt, if_true, mid, hsome, hkey] at h
    obtain ⟨hm, hget⟩ := List.getElem?_eq_some_iff.mp hsome
    cases h
    exact ⟨hget ▸ List.getElem_mem hm, hkey⟩
  | case3 low high hlt mid entry hsome hne hk ih =>
    rw [binarySearchLoop] at h
    simp only [hlt, if_true, mid, hsome, hne, hk, if_false] at h
    exact ih h
  | case4 low high hlt mid entry hsome hne hk ih =>
    rw [binarySearchLoop] at h
    simp only [hlt, if_true, mid, hsome, hne, hk, if_false] at h
    exact ih h
  | case5 low high hlt =>
    rw [binarySearchLoop] at h
    simp [hlt] at h

/-- On a map sorted by key, the search loop finds the entry at index `i` whenever `i`
lies in the index range searched and the entry there carries the key. -/
theorem binarySearchLoop_finds {TKey TValue : Type} [LinearOrder TKey]
    (map : List (BinSearchValue TKey TValue)) (key : TKey)
    (hsorted : SortedByKey map) (i : Nat) (hi : i < map.length) (hkey : map[i].key = key)
    (low high : Nat) (hlow : low ≤ i) (hhigh : i < high) (hlen : high ≤ map.length) :
    binarySearchLoop map key low high = some map[i] := by
  induction low, high using binarySearchLoop.induct map key with
  | case1 low high hlt mid hnone =>
    have hm : mid < map.length := by simp only [mid]; omega
    rw [List.getElem?_eq_getElem hm] at hnone
    cases hnone
  | case2 low high hlt mid entry hsome hk =>
    rw [binarySearchLoop]
    simp only [hlt, if_true, mid, hsome, hk]
    obtain ⟨hm, hget⟩ := List.getElem?_eq_some_iff.mp hsome
    have hmi : mid = i := by
      rcases Nat.lt_trichotomy mid i with hlt2 | heq | hgt
      · have := hsorted.key_lt hm hi hlt2
        rw [hget, hk, hkey] at this
        exact absurd this (lt_irrefl _)
      · exact heq
      · have := hsorted.key_lt hi hm hgt
        rw [hget, hk, hkey] at this
        exact absurd this (lt_irrefl _)
    subst hmi
    rw [hget]
  | case3 low high hlt mid entry hsome hne hk ih =>
    rw [binarySearchLoop]
    simp only [hlt, if_true, mid, hsome, hne, hk, if_false]
    obtain ⟨hm, hget⟩ := List.getElem?_eq_some_iff.mp hsome
    apply ih _ hhigh hlen
    by_contra hcon
    have hle : i ≤ mid := by omega
    rcases Nat.lt_or_eq_of_le hle with hlt2 | heq
    · have := hsorted.key_lt hi hm hlt2
      rw [hget, hkey] at this
      exact absurd (lt_trans this hk) (lt_irrefl _)
    · subst heq
      rw [hget] at hkey
      exact hne hkey
  | case4 low high hlt mid entry hsome hne hk ih =>
    rw [binarySearchLoop]
    simp only [hlt, if_true, mid, hsome, hne, hk, if_false]
    obtain ⟨hm, hget⟩ := List.getElem?_eq_some_iff.mp hsome
    have hmh : mid ≤ high := by simp only [mid]; omega
    apply ih hlow _ (le_trans hmh hlen)
    by_contra hcon
    have hle : mid ≤ i := by omega
    rcases Nat.lt_or_eq_of_le hle with hlt2 | heq
    · have := hsorted.key_lt hm hi hlt2
      rw [hget, hkey] at this
      exact hk this
    · subst heq
      rw [hget] at hkey
      exact hne hkey
  | case5 low high hlt =>
    omega

/-- C7: on a map sorted by strictly increasing key, searching a key that some entry of
the map carries returns that entry: a non-null entry of the map whose key is the
searched key and whose value is the value paired with it. -/
theorem binarySearch_finds {TKey TValue : Type} [LinearOrder TKey]
    (map : List (BinSearchValue TKey TValue)) (key : TKey)
    (e : BinSearchValue TKey TValue) (hsorted : SortedByKey map) (hmem : e ∈ map)
    (hkey : e.key = key) :
    binarySearch map map.length key = some e := by
  obtain ⟨i, hi, hget⟩ := List.mem_iff_getElem.mp hmem
  subst hget
  exact binarySearchLoop_finds map key hsorted i hi hkey 0 map.length (Nat.zero_le _) hi
    (le_refl _)

/-- C8: searching a key that no entry of the map carries returns null. This holds of
every map, so of every map sorted by strictly increasing key and of the empty map, and
the values of the entries play no role. -/
theorem binarySearch_absent {TKey TValue : Type} [LinearOrder TKey]
    (map : List (BinSearchValue TKey TValue)) (key : TKey)
    (habsent : ∀ e ∈ map, e.key ≠ key) :
    binarySearch map map.length key = none := by
  cases hres : binarySearch map map.length key with
  | none => rfl
  | some e =>
    have := binarySearchLoop_some map key 0 map.length e hres
    exact absurd this.2 (habsent e this.1)

/-- Witness of C7, the positive unit test: searching 6 in `kTestBinSearch` returns the
entry with value 42. -/
theorem binarySearch_finds_witness :
    SortedByKey kTestBinSearch ∧
    binarySearch kTestBinSearch kTestBinSearch.length 6 = some ⟨6, 42⟩ :=
  ⟨by decide, binarySearch_finds kTestBinSearch 6 ⟨6, 42⟩ (by decide) (by decide) rfl⟩

/-- Witness of C8, the negative unit test: 42 is the value of an entry of
`kTestBinSearch` but the key of none, and searching it returns null. -/
theorem binarySearch_absent_witness :
    (⟨6, 42⟩ : BinSearchValue Nat Nat) ∈ kTestBinSearch ∧
    binarySearch kTestBinSearch kTestBinSearch.length 42 = none :=
  ⟨by decide, binarySearch_absent kTestBinSearch 42 (by decide)⟩

/-- The two unit tests, evaluated on the search itself: key 6 is found with value 42,
key 42 is not found. -/
theorem binarySearch_kTestBinSearch :
    binarySearch kTestBinSearch 3 6 = some ⟨6, 42⟩ ∧
    binarySearch kTestBinSearch 3 42 = none := by
  constructor <;> simp [binarySearch, binarySearchLoop, kTestBinSearch]

/-! ## Debug channels -/

namespace DebugManager

/-- C9: a channel is enabled for a message level exactly when the channel's current
verbosity level is equal to or higher than that level. -/
theorem isEnabled_eq_le (m : DebugManager) (channel : DebugChannel) (level : Nat) :
    m.isEnabled channel level = decide (level ≤ m.getVerbosityLevel channel) := by
  simp [isEnabled]

/-- The scenario of the class documentation: the channel at level 3 shows a message of
level 3 and does not show one of level 4, and the channel at level 0 does not show a
message of level 1. -/
theorem isEnabled_documentedManager :
    documentedManager.isEnabled .kDebugGraphics 3 = true ∧
    documentedManager.isEnabled .kDebugGraphics 4 = false ∧
    documentedManager.isEnabled .kDebugSound 1 = false := by
  decide

end DebugManager

end Common

/-! ## Order of the checks in `assignCommand` and `delayCommand` -/

namespace Engines.KotOR.Functions

/-- C14: with an empty script name the error of `assignCommand` is the missing-script
exception "Script needed" whatever the parameters are, so never a type mismatch nor an
out-of-range read, and `delayCommand` ends with the very same error, message
included. -/
theorem emptyScriptName_error_is_scriptNeeded (w : World) (h : w.ctx.scriptName = "") :
    (assignCommand w).1 =
        .error (.exception "Functions::assignCommand(): Script needed") ∧
      (delayCommand w).1 = (assignCommand w).1 ∧
      (assignCommand w).1 ≠ .error .typeMismatch ∧
      (assignCommand w).1 ≠ .error .outOfRange ∧
      (delayCommand w).1 ≠ .error .typeMismatch ∧
      (delayCommand w).1 ≠ .error .outOfRange := by
  simp [assignCommand, delayCommand, Aurora.NWScript.FunctionContext.getScriptName, h]

/-- Witness of C14 on `worldNoScriptWrongKind`, whose parameter 0 is a string and whose
parameter 1 is absent. -/
theorem emptyScriptName_error_is_scriptNeeded_witness :
    worldNoScriptWrongKind.ctx.scriptName = "" ∧
    (assignCommand worldNoScriptWrongKind).1 =
      .error (.exception "Functions::assignCommand(): Script needed") ∧
    (delayCommand worldNoScriptWrongKind).1 = (assignCommand worldNoScriptWrongKind).1 :=
  ⟨rfl, (emptyScriptName_error_is_scriptNeeded worldNoScriptWrongKind rfl).1,
    (emptyScriptName_error_is_scriptNeeded worldNoScriptWrongKind rfl).2.1⟩

end Engines.KotOR.Functions

/-! ## Range of the verbosity levels -/

namespace Common.DebugManager

/-- The level read for a channel is the level of an entry of `_channels`, or 0. -/
theorem getVerbosityLevel_le_of_inRange (m : DebugManager) (h : m.LevelsInRange)
    (channel : DebugChannel) : m.getVerbosityLevel channel ≤ kMaxVerbosityLevel := by
  unfold getVerbosityLevel
  split
  next c hc =>
    obtain ⟨hlt, hget⟩ := List.getElem?_eq_some_iff.mp hc
    exact h c (hget ▸ List.getElem_mem hlt)
  next => exact Nat.zero_le _

/-- Storing a capped level into one channel keeps all levels in range. -/
theorem setChannelLevel_inRange (m : DebugManager) (h : m.LevelsInRange)
    (index level : Nat) : (m.setChannelLevel index level).LevelsInRange := by
  unfold setChannelLevel
  split
  next => exact h
  next c _ =>
    intro d hd
    rcases List.mem_or_eq_of_mem_set hd with hmem | heq
    · exact h d hmem
    · subst heq
      exact Nat.min_le_right _ _

/-- Storing a capped level into every channel leaves all levels in range. -/
theorem setAllLevels_inRange (m : DebugManager) (level : Nat) :
    (m.setAllLevels level).LevelsInRange := by
  intro d hd
  simp only [setAllLevels, List.mem_map] at hd
  obtain ⟨c, _, rfl⟩ := hd
  exact Nat.min_le_right _ _

/-- One call of `setVerbosityLevel`, by ID or by name, keeps all levels in range. -/
theorem Call.apply_inRange (m : DebugManager) (h : m.LevelsInRange) (call : Call) :
    (Call.apply m call).LevelsInRange := by
  cases call with
  | byID channel level =>
    simp only [Call.apply, setVerbosityLevel]
    split_ifs
    · exact setAllLevels_inRange m level
    · exact h
    · exact setChannelLevel_inRange m h _ level
  | byName channel level =>
    simp only [Call.apply, setVerbosityLevelByName]
    split_ifs
    · exact setAllLevels_inRange m level
    · split
      · exact h
      · exact setChannelLevel_inRange m h _ level

/-- A sequence of calls of `setVerbosityLevel` keeps all levels in range. -/
theorem applyCalls_inRange (calls : List Call) (m : DebugManager) (h : m.LevelsInRange) :
    (m.applyCalls calls).LevelsInRange := by
  induction calls generalizing m with
  | nil => exact h
  | cons call rest ih => exact ih (Call.apply m call) (Call.apply_inRange m h call)

/-- One call of `setVerbosityLevel` keeps the number of channels. -/
theorem Call.apply_length (m : DebugManager) (call : Call) :
    (Call.apply m call)._channels.length = m._channels.length := by
  have hset : ∀ index level,
      (m.setChannelLevel index level)._channels.length = m._channels.length := by
    intro index level
    unfold setChannelLevel
    split <;> simp
  have hall : ∀ level, (m.setAllLevels level)._channels.length = m._channels.length := by
    intro level
    simp [setAllLevels]
  cases call with
  | byID channel level =>
    simp only [Call.apply, setVerbosityLevel]
    split_ifs
    · exact hall level
    · rfl
    · exact hset _ level
  | byName channel level =>
    simp only [Call.apply, setVerbosityLevelByName]
    split_ifs
    · exact hall level
    · split
      · rfl
      · exact hset _ level

/-- A sequence of calls of `setVerbosityLevel` keeps the number of channels. -/
theorem applyCalls_length (calls : List Call) (m : DebugManager) :
    (m.applyCalls calls)._channels.length = m._channels.length := by
  induction calls generalizing m with
  | nil => rfl
  | cons call rest ih =>
    exact (ih (Call.apply m call)).trans (Call.apply_length m call)

/-- A level within range that is set for an existing channel is the level read back. -/
theorem getVerbosityLevel_setVerbosityLevel (m : DebugManager) (channel : DebugChannel)
    (level : Nat) (hchannel : channel.toNat < DebugChannel.kDebugChannelCount.toNat)
    (hlen : channel.toNat < m._channels.length) (hlevel : level ≤ kMaxVerbosityLevel) :
    (m.setVerbosityLevel channel level).getVerbosityLevel channel = level := by
  have hall : channel ≠ .kDebugChannelAll := by
    intro heq
    subst heq
    simp [DebugChannel.toNat] at hchannel
  have hcount : ¬ channel.toNat ≥ DebugChannel.kDebugChannelCount.toNat := by omega
  simp only [setVerbosityLevel, hall, if_false, hcount, setChannelLevel,
    List.getElem?_eq_getElem hlen, getVerbosityLevel]
  simp [List.getElem?_set, hlen, Nat.min_eq_left hlevel]

/-- C11: from the manager as constructed, after any sequence of calls of
`setVerbosityLevel`, by channel ID or by name and with arbitrary levels, every channel
reads a verbosity level of at most `kMaxVerbosityLevel`, which is 9; and a further call
that sets a level of at most 9 for one of the debug channels is followed by a read of
exactly that level. -/
theorem verbosityLevel_stays_in_range (calls : List Call) :
    kMaxVerbosityLevel = 9 ∧
    (∀ channel, (new.applyCalls calls).getVerbosityLevel channel ≤ kMaxVerbosityLevel) ∧
    (∀ channel level, channel.toNat < DebugChannel.kDebugChannelCount.toNat →
      level ≤ kMaxVerbosityLevel →
      ((new.applyCalls calls).setVerbosityLevel channel level).getVerbosityLevel channel
        = level) := by
  have hnew : new.LevelsInRange := by
    intro c hc
    simp only [new, List.mem_cons, List.mem_singleton, List.not_mem_nil, or_false] at hc
    rcases hc with h | h | h | h | h | h | h | h | h | h | h | h | h | h | h | h | h <;>
      subst h <;> exact Nat.zero_le _
  refine ⟨rfl, ?_, ?_⟩
  · intro channel
    exact getVerbosityLevel_le_of_inRange _ (applyCalls_inRange calls new hnew) channel
  · intro channel level hchannel hlevel
    apply getVerbosityLevel_setVerbosityLevel _ _ _ hchannel _ hlevel
    rw [applyCalls_length]
    exact hchannel

/-- Witness of C11 on `sampleCalls`, which asks for the levels 12 and 4294967295: the
channel set to 4294967295 reads at most 9, and reads 7 once 7 is set. -/
theorem verbosityLevel_stays_in_range_witness :
    DebugChannel.kDebugEngineLogic.toNat < DebugChannel.kDebugChannelCount.toNat ∧
    7 ≤ kMaxVerbosityLevel ∧
    (new.applyCalls sampleCalls).getVerbosityLevel .kDebugEngineLogic
      ≤ kMaxVerbosityLevel ∧
    ((new.applyCalls sampleCalls).setVerbosityLevel .kDebugEngineLogic 7).getVerbosityLevel
      .kDebugEngineLogic = 7 :=
  ⟨by decide, by decide,
    (verbosityLevel_stays_in_range sampleCalls).2.1 .kDebugEngineLogic,
    (verbosityLevel_stays_in_range sampleCalls).2.2 .kDebugEngineLogic 7 (by decide)
      (by decide)⟩

/-- The levels `sampleCalls` leaves behind: the channel asked to go to 4294967295 is at
9, the one asked by name to go to 3 is at 3, and the others are at 9 from the request
of 12 for all. -/
theorem sampleCalls_levels :
    (new.applyCalls sampleCalls).getVerbosityLevel .kDebugEngineLogic = 9 ∧
    (new.applyCalls sampleCalls).getVerbosityLevel .kDebugSound = 3 ∧
    (new.applyCalls sampleCalls).getVerbosityLevel .kDebugGraphics = 9 := by
  decide

end Common.DebugManager

/-! ## Little-endian UTF-16 -/

namespace Common

/-- The example string of the unit test: 6 characters, of UTF-8 form
F C3B6 C3B6 b C3A4 r. -/
theorem stringUString_utf8 :
    stringUString.length = 6 ∧
    stringUString.toUTF8.data.toList =
      [0x46, 0xC3, 0xB6, 0xC3, 0xB6, 0x62, 0xC3, 0xA4, 0x72] := by
  decide

end Common

namespace Common

/-- A character of the Basic Multilingual Plane takes one code unit, two bytes. -/
theorem encodeCharsUTF16LE_cons_bmp (c : Char) (rest : List Char)
    (hlt : c.toNat < 0x10000) :
    encodeCharsUTF16LE (c :: rest) =
      c.toNat % 256 :: c.toNat / 256 % 256 :: encodeCharsUTF16LE rest := by
  simp [encodeCharsUTF16LE, utf16Units, hlt, writeUint16LE]

/-- Reading back the encoding of non-zero characters of the Basic Multilingual Plane,
followed by a 0 code unit and anything else, yields their codepoints. -/
theorem readUnitsLE_encode (cs : List Char) (trailing : List Nat)
    (h : ∀ c ∈ cs, c.toNat ≠ 0 ∧ c.toNat < 0x10000) :
    readUnitsLE (encodeCharsUTF16LE cs ++ 0 :: 0 :: trailing) = cs.map Char.toNat := by
  induction cs with
  | nil => simp [encodeCharsUTF16LE, readUnitsLE]
  | cons c rest ih =>
    obtain ⟨h0, hlt⟩ := h c (List.mem_cons_self _ _)
    have hrest := ih (fun d hd => h d (List.mem_cons_of_mem _ hd))
    have hval : c.toNat % 256 + 256 * (c.toNat / 256 % 256) = c.toNat := by omega
    rw [encodeCharsUTF16LE_cons_bmp c rest hlt]
    simp only [List.cons_append, readUnitsLE, hval, h0, if_false, List.map_cons]
    exact congrArg (List.cons c.toNat) hrest

/-- The codepoints of characters of the Basic Multilingual Plane decode to the
characters. -/
theorem decodeUTF16_map_toNat (cs : List Char) (h : ∀ c ∈ cs, c.toNat < 0x10000) :
    decodeUTF16 (cs.map Char.toNat) = some cs := by
  induction cs with
  | nil => simp [decodeUTF16]
  | cons c rest ih =>
    have hrest := ih (fun d hd => h d (List.mem_cons_of_mem _ hd))
    have hvalid : c.toNat < 0xD800 ∨ (0xDFFF < c.toNat ∧ c.toNat < 0x110000) := c.valid
    have hhigh : ¬ (0xD800 ≤ c.toNat ∧ c.toNat < 0xDC00) := by omega
    have hlow : ¬ (0xDC00 ≤ c.toNat ∧ c.toNat < 0xE000) := by omega
    rw [List.map_cons, decodeUTF16.eq_def]
    simp only [hhigh, hlow, if_false, hrest, Option.map_some', Char.ofNat_toNat]

/-- The encoding takes two bytes per character of the Basic Multilingual Plane. -/
theorem encodeCharsUTF16LE_length (cs : List Char) (h : ∀ c ∈ cs, c.toNat < 0x10000) :
    (encodeCharsUTF16LE cs).length = 2 * cs.length := by
  induction cs with
  | nil => simp [encodeCharsUTF16LE]
  | cons c rest ih =>
    have hrest := ih (fun d hd => h d (List.mem_cons_of_mem _ hd))
    rw [encodeCharsUTF16LE_cons_bmp c rest (h c (List.mem_cons_self _ _))]
    simp only [List.length_cons, hrest]
    omega

/-- C12: for every string of non-zero codepoints of the Basic Multilingual Plane,
reading a little-endian UTF-16 string from its encoding followed by a 0 code unit and
by arbitrary trailing bytes yields the string itself, and the encoding without
terminator takes 2 bytes per character. -/
theorem readStringUTF16LE_encodeUTF16LE (s : String) (trailing : List Nat)
    (h : ∀ c ∈ s.data, c.toNat ≠ 0 ∧ c.toNat < 0x10000) :
    readStringUTF16LE (encodeUTF16LE s ++ [0, 0] ++ trailing) = some s ∧
    (encodeUTF16LE s).length = 2 * s.length := by
  constructor
  · unfold readStringUTF16LE encodeUTF16LE
    rw [List.append_assoc]
    simp only [List.cons_append, List.nil_append]
    rw [readUnitsLE_encode s.data trailing h,
      decodeUTF16_map_toNat s.data (fun c hc => (h c hc).2)]
    rfl
  · exact encodeCharsUTF16LE_length s.data (fun c hc => (h c hc).2)

/-- Witness of C12, the unit test data: the 12 bytes of the example string, followed by
0, 0 and the garbage `x`, 0, read as `stringUString`. -/
theorem readStringUTF16LE_encodeUTF16LE_witness :
    (∀ c ∈ stringUString.data, c.toNat ≠ 0 ∧ c.toNat < 0x10000) ∧
    encodeUTF16LE stringUString ++ [0, 0] ++ [120, 0] = stringData0X ∧
    readStringUTF16LE (encodeUTF16LE stringUString ++ [0, 0] ++ [120, 0])
      = some stringUString ∧
    (encodeUTF16LE stringUString).length = 2 * stringUString.length :=
  ⟨by decide, by decide,
    readStringUTF16LE_encodeUTF16LE stringUString [120, 0] (by decide)⟩

/-- The unit test data, evaluated on the reader itself: `stringData0X` reads as
`stringUString`, and the encoding of `stringUString` has 12 bytes. -/
theorem readStringUTF16LE_stringData0X :
    readStringUTF16LE stringData0X = some stringUString ∧
    (encodeUTF16LE stringUString).length = 12 := by
  decide

end Common

/-! ## The delay of `delayCommand` in single precision

`uint32 delay = ctx.getParams()[0].getFloat() * 1000;` multiplies two `float`s: the
exact product is rounded to binary32 before it is converted to `uint32`. -/

namespace Common

/-- The exponent found by the search is `-126` or satisfies `2 ^ e ≤ n / d`. -/
theorem binadeFrom_spec (n d : Nat) (fuel : Nat) :
    binadeFrom n d fuel = -126 ∨ pow2Le (binadeFrom n d fuel) n d = true := by
  induction fuel with
  | zero => left; rfl
  | succ fuel ih =>
    simp only [binadeFrom]
    split_ifs with h
    · right; exact h
    · exact ih

/-- Rounding a whole number leaves it as it is. -/
theorem roundHalfEven_one (a : Nat) : roundHalfEven a 1 = a := by
  simp [roundHalfEven, Nat.mod_one]

/-- A quotient below `B - 1 / 2` rounds to a number below `B`. -/
theorem roundHalfEven_lt (a d B : Nat) (h : 2 * a + d < 2 * B * d) :
    roundHalfEven a d < B := by
  have hd : 0 < d := by
    rcases Nat.eq_zero_or_pos d with h0 | h0
    · subst h0; simp at h
    · exact h0
  have hdiv : d * (a / d) + a % d = a := Nat.div_add_mod a d
  have hmod : a % d < d := Nat.mod_lt a hd
  have hexp : 2 * B * d = 2 * (d * B) := by ring
  rw [hexp] at h
  clear hexp
  unfold roundHalfEven
  generalize a / d = q at *
  generalize a % d = r at *
  have key1 : q < B := by
    by_contra hc
    push_neg at hc
    have h3 : d * B ≤ d * q := Nat.mul_le_mul_left d hc
    omega
  have key2 : d ≤ 2 * r → q + 1 < B := by
    intro h2
    by_contra hc
    push_neg at hc
    have h3 : d * B ≤ d * (q + 1) := Nat.mul_le_mul_left d hc
    rw [Nat.mul_add, Nat.mul_one] at h3
    omega
  split_ifs with h1 h2 h3
  · exact key1
  · exact key2 (by omega)
  · exact key1
  · exact key2 (by omega)

/-- On a non-negative binary32 value below `2 ^ 32` the conversion to `uint32` is the
floor of the value. -/
theorem floatToUint32_eq_floor (v : Binary32) (hsign : v.negative = false)
    (hlt : v.toRat < 2 ^ 32) : (floatToUint32 v : ℤ) = ⌊v.toRat⌋ := by
  obtain ⟨neg, m, k⟩ := v
  simp only at hsign
  subst hsign
  simp only [Binary32.toRat, floatToUint32] at hlt ⊢
  simp only [Bool.false_eq_true, if_false, one_mul] at hlt ⊢
  by_cases hk : 0 ≤ k
  · obtain ⟨t, rfl⟩ := Int.eq_ofNat_of_zero_le hk
    simp only [hk, if_true, Int.toNat_ofNat, zpow_natCast] at hlt ⊢
    have hval : ((m : ℚ) * 2 ^ t) = ((m * 2 ^ t : ℕ) : ℚ) := by push_cast; ring
    rw [hval] at hlt ⊢
    have hlt' : m * 2 ^ t < 2 ^ 32 := by exact_mod_cast hlt
    rw [Int.floor_natCast]
    have : ((m * 2 ^ t : ℕ) : ℤ) % 2 ^ 32 = ((m * 2 ^ t : ℕ) : ℤ) := by
      apply Int.emod_eq_of_lt
      · positivity
      · exact_mod_cast hlt'
    rw [this]
    simp
  · push_neg at hk
    obtain ⟨j, hj⟩ : ∃ j : ℕ, k = -(j : ℤ) := ⟨(-k).toNat, by omega⟩
    subst hj
    have hk' : ¬ (0 : ℤ) ≤ -(j : ℤ) := by omega
    simp only [hk', if_false, neg_neg, Int.toNat_ofNat, zpow_neg, zpow_natCast] at hlt ⊢
    have hval : ((m : ℚ) * (2 ^ j)⁻¹) = (m : ℚ) / ((2 ^ j : ℕ) : ℚ) := by
      push_cast; rw [div_eq_mul_inv]
    rw [hval] at hlt ⊢
    have hfloor : ⌊(m : ℚ) / ((2 ^ j : ℕ) : ℚ)⌋ = ((m / 2 ^ j : ℕ) : ℤ) := by
      rw [← Int.natCast_floor_eq_floor (by positivity), Nat.floor_div_eq_div]
    rw [hfloor]
    have hle : ((m / 2 ^ j : ℕ) : ℚ) ≤ (m : ℚ) / ((2 ^ j : ℕ) : ℚ) := Nat.cast_div_le
    have hlt' : m / 2 ^ j < 2 ^ 32 := by
      have : ((m / 2 ^ j : ℕ) : ℚ) < 2 ^ 32 := lt_of_le_of_lt hle hlt
      exact_mod_cast this
    have : ((m / 2 ^ j : ℕ) : ℤ) % 2 ^ 32 = ((m / 2 ^ j : ℕ) : ℤ) := by
      apply Int.emod_eq_of_lt
      · positivity
      · exact_mod_cast hlt'
    rw [this]
    exact Int.toNat_of_nonneg (by positivity)

/-- No exponent above the one found by the search, within the range searched,
satisfies `2 ^ e ≤ n / d`. -/
theorem binadeFrom_max (n d : Nat) (fuel : Nat) (e : Int)
    (h1 : binadeFrom n d fuel < e) (h2 : e ≤ (fuel : Int) - 126) :
    pow2Le e n d = false := by
  induction fuel with
  | zero =>
    simp only [binadeFrom] at h1
    simp at h2
    omega
  | succ fuel ih =>
    simp only [binadeFrom] at h1
    push_cast at h2
    split_ifs at h1 with h
    · omega
    · by_cases he : e = (fuel : Int) - 125
      · rw [he]
        simpa using h
      · exact ih h1 (by omega)

/-- The exponent found by the search lies between `-126` and `fuel - 126`. -/
theorem binadeFrom_range (n d : Nat) (fuel : Nat) :
    -126 ≤ binadeFrom n d fuel ∧ binadeFrom n d fuel ≤ (fuel : Int) - 126 := by
  induction fuel with
  | zero => simp [binadeFrom]
  | succ fuel ih =>
    simp only [binadeFrom]
    push_cast
    split_ifs with h
    · by_cases h0 : fuel = 0
      · subst h0
        simp [pow2Le] at h ⊢
      · omega
    · omega

/-- The rounded quotient is within one half of `a / b`, and it is even when `a / b`
lies halfway between two whole numbers. -/
theorem roundHalfEven_nearest (a b : Nat) (hb : 0 < b) :
    2 * (roundHalfEven a b * b) ≤ 2 * a + b ∧ 2 * a ≤ 2 * (roundHalfEven a b * b) + b ∧
    (2 * (roundHalfEven a b * b) = 2 * a + b ∨ 2 * a = 2 * (roundHalfEven a b * b) + b →
      roundHalfEven a b % 2 = 0) := by
  have hdiv : b * (a / b) + a % b = a := Nat.div_add_mod a b
  have hmod : a % b < b := Nat.mod_lt a hb
  unfold roundHalfEven
  generalize a / b = q at *
  generalize a % b = r at *
  split_ifs with h1 h2 h3
  · have e1 : q * b = b * q := Nat.mul_comm _ _
    rw [e1]
    refine ⟨by omega, by omega, ?_⟩
    intro h; omega
  · have e1 : (q + 1) * b = b * q + b := by ring
    rw [e1]
    refine ⟨by omega, by omega, ?_⟩
    intro h; omega
  · have e1 : q * b = b * q := Nat.mul_comm _ _
    rw [e1]
    refine ⟨by omega, by omega, ?_⟩
    intro _; exact h3
  · have e1 : (q + 1) * b = b * q + b := by ring
    rw [e1]
    refine ⟨by omega, by omega, ?_⟩
    intro _; omega

/-- A quotient of at most `B` rounds to at most `B`. -/
theorem roundHalfEven_le (a b B : Nat) (hb : 0 < b) (h : a ≤ B * b) :
    roundHalfEven a b ≤ B := by
  have hdiv : b * (a / b) + a % b = a := Nat.div_add_mod a b
  have hmod : a % b < b := Nat.mod_lt a hb
  have hq : a / b ≤ B := by
    calc a / b ≤ B * b / b := Nat.div_le_div_right h
      _ = B := Nat.mul_div_cancel B hb
  have hq2 : 0 < a % b → a / b + 1 ≤ B := by
    intro hr
    by_contra hc
    have hc' : a / b = B := by omega
    rw [hc', Nat.mul_comm] at hdiv
    omega
  unfold roundHalfEven
  split_ifs with h1 h2 h3
  · exact hq
  · exact hq2 (by omega)
  · exact hq
  · exact hq2 (by omega)

/-- Rounding `n / d`, below `2 ^ 128`, gives a float: the significand has at most 24
bits (`2 ^ 24` itself stands for the first float of the next binade), the exponent is
in the range of the format, the value is within half a unit in the last place of
`n / d`, and in a tie the significand is even. -/
theorem roundToBinary32_nearest (negative : Bool) (n d : Nat) (hd : 0 < d)
    (hfinite : n < d * 2 ^ 128) :
    (roundToBinary32 negative n d).significand ≤ 2 ^ 24 ∧
    -149 ≤ (roundToBinary32 negative n d).exponent ∧
    (roundToBinary32 negative n d).exponent ≤ 104 ∧
    2 * |((roundToBinary32 negative n d).significand : ℚ) *
        2 ^ (roundToBinary32 negative n d).exponent - (n : ℚ) / d| ≤
      2 ^ (roundToBinary32 negative n d).exponent ∧
    (2 * |((roundToBinary32 negative n d).significand : ℚ) *
        2 ^ (roundToBinary32 negative n d).exponent - (n : ℚ) / d| =
      2 ^ (roundToBinary32 negative n d).exponent →
      (roundToBinary32 negative n d).significand % 2 = 0) := by
  have hrange : -126 ≤ binade n d ∧ binade n d ≤ 127 := by
    have := binadeFrom_range n d 253
    unfold binade
    omega
  have hdq : (0 : ℚ) < d := by exact_mod_cast hd
  by_cases hk : 0 ≤ binade n d - 23
  · obtain ⟨t, ht⟩ : ∃ t : ℕ, binade n d - 23 = (t : ℤ) := Int.eq_ofNat_of_zero_le hk
    have hb : 0 < d * 2 ^ t := by positivity
    have ht1 : -149 ≤ (t : ℤ) := by omega
    have ht2 : (t : ℤ) ≤ 104 := by omega
    have hupper : n < d * 2 ^ (t + 24) := by
      by_cases h127 : binade n d = 127
      · have : t = 104 := by omega
        subst this
        exact hfinite
      · have hmax := binadeFrom_max n d 253 (binade n d + 1) (by unfold binade; omega)
          (by push_cast; omega)
        have he : binade n d + 1 = ((t + 24 : ℕ) : ℤ) := by push_cast; omega
        rw [he] at hmax
        simpa [pow2Le] using hmax
    have hsig : roundHalfEven n (d * 2 ^ t) ≤ 2 ^ 24 := by
      apply roundHalfEven_le _ _ _ hb
      have : d * 2 ^ (t + 24) = 2 ^ 24 * (d * 2 ^ t) := by rw [pow_add]; ring
      omega
    obtain ⟨hn1, hn2, hn3⟩ := roundHalfEven_nearest n (d * 2 ^ t) hb
    simp only [roundToBinary32, ht, Int.natCast_nonneg, if_true, Int.toNat_ofNat, zpow_natCast]
    generalize roundHalfEven n (d * 2 ^ t) = M at *
    have hbq : (0 : ℚ) < 2 ^ t := by positivity
    have q1 : (2 : ℚ) * (M * (d * 2 ^ t)) ≤ 2 * n + d * 2 ^ t := by exact_mod_cast hn1
    have q2 : (2 : ℚ) * n ≤ 2 * (M * (d * 2 ^ t)) + d * 2 ^ t := by exact_mod_cast hn2
    have hdiff : ((M : ℚ) * 2 ^ t - n / d) * d = M * (d * 2 ^ t) - n := by
      field_simp; ring
    have habs : 2 * |(M : ℚ) * 2 ^ t - n / d| * d = |2 * (M * (d * 2 ^ t)) - 2 * (n : ℚ)| := by
      have e1 : 2 * ((M : ℚ) * (d * 2 ^ t)) - 2 * (n : ℚ) =
          2 * (((M : ℚ) * 2 ^ t - n / d) * d) := by rw [hdiff]; ring
      rw [e1, abs_mul, abs_mul, abs_of_pos (show (0 : ℚ) < 2 by norm_num), abs_of_pos hdq]
      ring
    refine ⟨hsig, ht1, ht2, ?_, ?_⟩
    · have : 2 * |(M : ℚ) * 2 ^ t - n / d| * d ≤ 2 ^ t * d := by
        rw [habs, abs_le]
        constructor <;> linarith only [q1, q2]
      exact le_of_mul_le_mul_right this hdq
    · intro heq
      apply hn3
      have h2 : |2 * ((M : ℚ) * (d * 2 ^ t)) - 2 * (n : ℚ)| = d * 2 ^ t := by
        rw [← habs, heq]; ring
      rcases abs_eq (by positivity : (0 : ℚ) ≤ d * 2 ^ t) |>.mp h2 with h3 | h3
      · left
        have : (2 : ℚ) * (M * (d * 2 ^ t)) = 2 * n + d * 2 ^ t := by linarith only [h3]
        exact_mod_cast this
      · right
        have : (2 : ℚ) * n = 2 * (M * (d * 2 ^ t)) + d * 2 ^ t := by linarith only [h3]
        exact_mod_cast this
  · obtain ⟨j, hj⟩ : ∃ j : ℕ, binade n d - 23 = -(j : ℤ) :=
      ⟨(-(binade n d - 23)).toNat, by omega⟩
    have hk' : ¬ (0 : ℤ) ≤ -(j : ℤ) := by rw [← hj]; exact hk
    have hj1 : -149 ≤ -(j : ℤ) := by omega
    have hj2 : -(j : ℤ) ≤ 104 := by omega
    have hupper : n * 2 ^ j < d * 2 ^ 24 := by
      have hmax := binadeFrom_max n d 253 (binade n d + 1) (by unfold binade; omega)
        (by push_cast; omega)
      by_cases hpos : 0 ≤ binade n d + 1
      · obtain ⟨u, hu⟩ : ∃ u : ℕ, binade n d + 1 = (u : ℤ) := Int.eq_ofNat_of_zero_le hpos
        rw [hu] at hmax
        have hlt : n < d * 2 ^ u := by simpa [pow2Le] using hmax
        have h24 : u + j = 24 := by omega
        have : n * 2 ^ j < d * 2 ^ u * 2 ^ j := Nat.mul_lt_mul_of_pos_right hlt (by positivity)
        have e1 : d * 2 ^ u * 2 ^ j = d * 2 ^ 24 := by rw [mul_assoc, ← pow_add, h24]
        omega
      · obtain ⟨u, hu⟩ : ∃ u : ℕ, binade n d + 1 = -(u : ℤ) :=
          ⟨(-(binade n d + 1)).toNat, by omega⟩
        have hu' : ¬ (0 : ℤ) ≤ -(u : ℤ) := by rw [← hu]; exact hpos
        rw [hu] at hmax
        have hlt : n * 2 ^ u < d := by simpa [pow2Le, hu'] using hmax
        have h24 : j = u + 24 := by omega
        have : n * 2 ^ u * 2 ^ 24 < d * 2 ^ 24 := Nat.mul_lt_mul_of_pos_right hlt (by positivity)
        have e1 : n * 2 ^ j = n * 2 ^ u * 2 ^ 24 := by rw [h24, pow_add, mul_assoc]
        omega
    have hsig : roundHalfEven (n * 2 ^ j) d ≤ 2 ^ 24 := by
      apply roundHalfEven_le _ _ _ hd
      rw [Nat.mul_comm (2 ^ 24) d]
      omega
    obtain ⟨hn1, hn2, hn3⟩ := roundHalfEven_nearest (n * 2 ^ j) d hd
    simp only [roundToBinary32, hj, hk', if_false, neg_neg, Int.toNat_ofNat, zpow_neg,
      zpow_natCast]
    generalize roundHalfEven (n * 2 ^ j) d = M at *
    have hbq : (0 : ℚ) < 2 ^ j := by positivity
    have q1 : (2 : ℚ) * (M * d) ≤ 2 * (n * 2 ^ j) + d := by exact_mod_cast hn1
    have q2 : (2 : ℚ) * (n * 2 ^ j) ≤ 2 * (M * d) + d := by exact_mod_cast hn2
    have habs : 2 * |(M : ℚ) * (2 ^ j)⁻¹ - n / d| * (d * 2 ^ j) =
        |2 * ((M : ℚ) * d) - 2 * (n * 2 ^ j)| := by
      have hpos : (0 : ℚ) < 2 * (d * 2 ^ j) := by positivity
      have e1 : 2 * |(M : ℚ) * (2 ^ j)⁻¹ - n / d| * (d * 2 ^ j) =
          |(M : ℚ) * (2 ^ j)⁻¹ - n / d| * |2 * ((d : ℚ) * 2 ^ j)| := by
        rw [abs_of_pos hpos]; ring
      rw [e1, ← abs_mul]
      congr 1
      field_simp
      ring
    refine ⟨hsig, hj1, hj2, ?_, ?_⟩
    · have : 2 * |(M : ℚ) * (2 ^ j)⁻¹ - n / d| * (d * 2 ^ j) ≤ (2 ^ j)⁻¹ * (d * 2 ^ j) := by
        rw [habs, abs_le]
        have e2 : ((2 : ℚ) ^ j)⁻¹ * (d * 2 ^ j) = d := by field_simp
        rw [e2]
        constructor <;> linarith only [q1, q2]
      exact le_of_mul_le_mul_right this (by positivity)
    · intro heq
      apply hn3
      have h2 : |2 * ((M : ℚ) * d) - 2 * (n * 2 ^ j)| = d := by
        rw [← habs, heq]; field_simp
      rcases abs_eq (by positivity : (0 : ℚ) ≤ d) |>.mp h2 with h3 | h3
      · left
        have : (2 : ℚ) * (M * d) = 2 * (n * 2 ^ j) + d := by linarith only [h3]
        exact_mod_cast this
      · right
        have : (2 : ℚ) * (n * 2 ^ j) = 2 * (M * d) + d := by linarith only [h3]
        exact_mod_cast this

/-- The unit in the last place is that of the binade of `n / d`: the exponent is the
smallest one of the format, or `2 ^ (exponent + 23) ≤ n / d`. -/
theorem roundToBinary32_binade (negative : Bool) (n d : Nat) (hd : 0 < d) :
    (roundToBinary32 negative n d).exponent = -149 ∨
    (2 : ℚ) ^ ((roundToBinary32 negative n d).exponent + 23) ≤ (n : ℚ) / d := by
  have hexp : (roundToBinary32 negative n d).exponent = binade n d - 23 := rfl
  have hdq : (0 : ℚ) < d := by exact_mod_cast hd
  rw [hexp]
  rcases binadeFrom_spec n d 253 with h0 | h0
  · left
    unfold binade
    omega
  · right
    have he : binade n d - 23 + 23 = binade n d := by omega
    rw [he]
    unfold binade
    generalize binadeFrom n d 253 = e at h0
    by_cases hpos : 0 ≤ e
    · obtain ⟨t, rfl⟩ := Int.eq_ofNat_of_zero_le hpos
      have h1 : d * 2 ^ t ≤ n := by simpa [pow2Le] using h0
      have h2 : ((d * 2 ^ t : ℕ) : ℚ) ≤ (n : ℚ) := by exact_mod_cast h1
      rw [zpow_natCast, le_div_iff₀ hdq]
      push_cast at h2
      linarith only [h2]
    · obtain ⟨j, rfl⟩ : ∃ j : ℕ, e = -(j : ℤ) := ⟨(-e).toNat, by omega⟩
      have hneg : ¬ (0 : ℤ) ≤ -(j : ℤ) := hpos
      have h1 : d ≤ n * 2 ^ j := by simpa [pow2Le, hneg] using h0
      have h2 : ((d : ℕ) : ℚ) ≤ ((n * 2 ^ j : ℕ) : ℚ) := by exact_mod_cast h1
      have hj : (0 : ℚ) < 2 ^ j := by positivity
      rw [zpow_neg, zpow_natCast, le_div_iff₀ hdq, inv_mul_le_iff₀ hj]
      push_cast at h2
      linarith only [h2]

/-- The product `mulFloat f g` is the exact product `f * g` rounded to the nearest
float, ties to even, whenever the exact product is below `2 ^ 128` in absolute value:
its significand has at most 24 bits, its exponent is in the range of the format and is
that of the binade of `f * g`, its value is within half a unit in the last place of
`f * g`, and in a tie its significand is even. -/
theorem mulFloat_nearest (f g : ℚ) (hfinite : |f * g| < 2 ^ 128) :
    (mulFloat f g).significand ≤ 2 ^ 24 ∧
    -149 ≤ (mulFloat f g).exponent ∧ (mulFloat f g).exponent ≤ 104 ∧
    2 * |(mulFloat f g).toRat - f * g| ≤ 2 ^ (mulFloat f g).exponent ∧
    (2 * |(mulFloat f g).toRat - f * g| = 2 ^ (mulFloat f g).exponent →
      (mulFloat f g).significand % 2 = 0) ∧
    ((mulFloat f g).exponent = -149 ∨
      (2 : ℚ) ^ ((mulFloat f g).exponent + 23) ≤ |f * g|) := by
  have hd : 0 < f.den * g.den := Nat.mul_pos f.den_pos g.den_pos
  have hdq : (0 : ℚ) < ((f.den * g.den : ℕ) : ℚ) := by exact_mod_cast hd
  have hfg : f * g = ((f.num * g.num : ℤ) : ℚ) / ((f.den * g.den : ℕ) : ℚ) := by
    conv_lhs => rw [← Rat.num_div_den f, ← Rat.num_div_den g]
    push_cast
    rw [div_mul_div_comm]
  have hn : ((f.num.natAbs * g.num.natAbs : ℕ) : ℚ) = |((f.num * g.num : ℤ) : ℚ)| := by
    rw [← Int.natAbs_mul, Nat.cast_natAbs, Int.cast_abs]
  have habs : |f * g| = ((f.num.natAbs * g.num.natAbs : ℕ) : ℚ) / ((f.den * g.den : ℕ) : ℚ) := by
    rw [hfg, abs_div, abs_of_pos hdq, hn]
  have hfin : f.num.natAbs * g.num.natAbs < f.den * g.den * 2 ^ 128 := by
    rw [habs, div_lt_iff₀ hdq] at hfinite
    have : ((f.num.natAbs * g.num.natAbs : ℕ) : ℚ) < ((f.den * g.den * 2 ^ 128 : ℕ) : ℚ) := by
      push_cast at hfinite ⊢
      linarith only [hfinite]
    exact_mod_cast this
  obtain ⟨h1, h2, h3, h4, h5⟩ :=
    roundToBinary32_nearest (decide (f.num * g.num < 0)) _ _ hd hfin
  have hdiff : |(mulFloat f g).toRat - f * g| =
      |((mulFloat f g).significand : ℚ) * 2 ^ (mulFloat f g).exponent -
        ((f.num.natAbs * g.num.natAbs : ℕ) : ℚ) / ((f.den * g.den : ℕ) : ℚ)| := by
    rw [hn]
    by_cases hneg : f.num * g.num < 0
    · have hq : ((f.num * g.num : ℤ) : ℚ) < 0 := by exact_mod_cast hneg
      have e1 : (mulFloat f g).toRat =
          -(((mulFloat f g).significand : ℚ) * 2 ^ (mulFloat f g).exponent) := by
        have hflag : (mulFloat f g).negative = true := by
          simp [mulFloat, roundToBinary32, hneg]
        unfold Binary32.toRat
        rw [hflag, if_pos rfl]
        ring
      rw [e1, hfg, abs_of_neg hq, ← abs_neg]
      congr 1
      rw [neg_div]
      ring
    · push_neg at hneg
      have hq : (0 : ℚ) ≤ ((f.num * g.num : ℤ) : ℚ) := by exact_mod_cast hneg
      have e1 : (mulFloat f g).toRat =
          ((mulFloat f g).significand : ℚ) * 2 ^ (mulFloat f g).exponent := by
        have hflag : (mulFloat f g).negative = false := by
          simp [mulFloat, roundToBinary32, hneg]
        unfold Binary32.toRat
        rw [hflag, if_neg (by simp)]
        ring
      rw [e1, hfg, abs_of_nonneg hq]
  have h6 := roundToBinary32_binade (decide (f.num * g.num < 0))
    (f.num.natAbs * g.num.natAbs) (f.den * g.den) hd
  rw [← habs] at h6
  rw [hdiff]
  exact ⟨h1, h2, h3, h4, h5, h6⟩

/-- The product of a non-negative float and `1000.0f`, on numerator and denominator. -/
theorem mulFloat_thousand (d : ℚ) (h : 0 ≤ d) :
    mulFloat d 1000 = roundToBinary32 false (d.num.natAbs * 1000) d.den := by
  have hn : 0 ≤ d.num := Rat.num_nonneg.mpr h
  have h1 : (1000 : ℚ).num = 1000 := rfl
  have h2 : (1000 : ℚ).den = 1 := rfl
  have h3 : ¬ d.num * 1000 < 0 := by omega
  simp [mulFloat, h1, h2, h3]

/-- A quotient below `1 - 2 ^ (-25)` rounds to a float below 1, which converts to 0. -/
theorem roundToBinary32_small (n d : Nat)
    (h : n * 2 ^ 25 + d < 2 ^ 25 * d) :
    floatToUint32 (roundToBinary32 false n d) = 0 := by
  have hnd : n < d := by omega
  have he : binade n d ≤ -1 := by
    rcases binadeFrom_spec n d 253 with h0 | h0
    · unfold binade; omega
    · by_contra hc
      push_neg at hc
      have hc' : 0 ≤ binade n d := by omega
      unfold binade at hc'
      simp only [pow2Le, hc', if_true, decide_eq_true_eq] at h0
      have : d * 1 ≤ d * 2 ^ (binadeFrom n d 253).toNat :=
        Nat.mul_le_mul_left d (Nat.one_le_two_pow)
      omega
  obtain ⟨t, ht⟩ : ∃ t : ℕ, binade n d - 23 = -((24 + t : ℕ) : ℤ) :=
    ⟨(-(binade n d - 23)).toNat - 24, by omega⟩
  have hk : ¬ (0 : ℤ) ≤ -((24 + t : ℕ) : ℤ) := by omega
  simp only [roundToBinary32, floatToUint32, ht, hk, if_false, neg_neg, Int.toNat_ofNat,
    Bool.false_eq_true]
  have hlt : roundHalfEven (n * 2 ^ (24 + t)) d < 2 ^ (24 + t) := by
    apply roundHalfEven_lt
    have hT : 1 ≤ 2 ^ t := Nat.one_le_two_pow
    have h1 : (n * 2 ^ 25 + d) * 2 ^ t < 2 ^ 25 * d * 2 ^ t :=
      Nat.mul_lt_mul_of_pos_right h (by positivity)
    have h2 : d * 1 ≤ d * 2 ^ t := Nat.mul_le_mul_left d hT
    have e1 : 2 * (n * 2 ^ (24 + t)) = n * 2 ^ 25 * 2 ^ t := by rw [pow_add]; ring
    have e2 : 2 * 2 ^ (24 + t) * d = 2 ^ 25 * d * 2 ^ t := by rw [pow_add]; ring
    have e3 : (n * 2 ^ 25 + d) * 2 ^ t = n * 2 ^ 25 * 2 ^ t + d * 2 ^ t := by ring
    rw [e1, e2]
    rw [e3] at h1
    omega
  rw [Nat.div_eq_of_lt hlt]
  rfl

/-- A whole number with a significand of at most 24 bits is a float: rounding leaves
it as it is, and below `2 ^ 32` so does the conversion to `uint32`. -/
theorem roundToBinary32_exact (m j : Nat) (hm : m < 2 ^ 24) (h : m * 2 ^ j < 2 ^ 32) :
    floatToUint32 (roundToBinary32 false (m * 2 ^ j) 1) = m * 2 ^ j := by
  have hmod : (((m * 2 ^ j : ℕ) : ℤ) % 2 ^ 32).toNat = m * 2 ^ j := by
    have : ((m * 2 ^ j : ℕ) : ℤ) % 2 ^ 32 = ((m * 2 ^ j : ℕ) : ℤ) := by
      apply Int.emod_eq_of_lt
      · positivity
      · exact_mod_cast h
    rw [this]
    exact Int.toNat_ofNat _
  by_cases hk : 0 ≤ binade (m * 2 ^ j) 1 - 23
  · obtain ⟨t, ht⟩ : ∃ t : ℕ, binade (m * 2 ^ j) 1 - 23 = (t : ℤ) :=
      Int.eq_ofNat_of_zero_le hk
    have hpow : 2 ^ (t + 23) ≤ m * 2 ^ j := by
      rcases binadeFrom_spec (m * 2 ^ j) 1 253 with h0 | h0
      · unfold binade at ht; omega
      · have he : binade (m * 2 ^ j) 1 = ((t + 23 : ℕ) : ℤ) := by push_cast; omega
        unfold binade at he
        rw [he] at h0
        simpa [pow2Le] using h0
    have htj : t ≤ j := by
      by_contra hc
      push_neg at hc
      have h1 : m * 2 ^ j < 2 ^ 24 * 2 ^ j := Nat.mul_lt_mul_of_pos_right hm (by positivity)
      have h2 : 2 ^ (24 + j) ≤ 2 ^ (t + 23) := Nat.pow_le_pow_right (by norm_num) (by omega)
      rw [pow_add] at h2
      omega
    obtain ⟨i, rfl⟩ : ∃ i, j = t + i := ⟨j - t, by omega⟩
    have hN : m * 2 ^ (t + i) = 2 ^ t * (m * 2 ^ i) := by rw [pow_add]; ring
    have hround : roundHalfEven (m * 2 ^ (t + i)) (1 * 2 ^ t) = m * 2 ^ i := by
      have hpos : 0 < 2 ^ t := by positivity
      rw [hN, one_mul]
      simp [roundHalfEven, Nat.mul_mod_right, Nat.mul_div_cancel_left _ hpos, hpos]
    simp only [roundToBinary32, floatToUint32, ht, Int.natCast_nonneg, if_true, Int.toNat_ofNat,
      hround, Bool.false_eq_true, if_false]
    have hval : m * 2 ^ i * 2 ^ t = m * 2 ^ (t + i) := by rw [pow_add]; ring
    rw [hval]
    exact hmod
  · obtain ⟨i, hi⟩ : ∃ i : ℕ, binade (m * 2 ^ j) 1 - 23 = -(i : ℤ) :=
      ⟨(-(binade (m * 2 ^ j) 1 - 23)).toNat, by omega⟩
    have hk' : ¬ (0 : ℤ) ≤ -(i : ℤ) := by rw [← hi]; exact hk
    simp only [roundToBinary32, floatToUint32, hi, hk', if_false, neg_neg, Int.toNat_ofNat,
      roundHalfEven_one, Bool.false_eq_true]
    rw [Nat.mul_div_cancel _ (by positivity)]
    exact hmod

/-- For a float `d` with `0 ≤ d < 1 / 1000` the exact product `d * 1000` is below
`1 - 2 ^ (-25)`: the largest such float is `8589934 / 2 ^ 33`. -/
theorem binary32_small_bound (d : ℚ) (hrep : IsBinary32 d) (h0 : 0 ≤ d) (hlt : d < 1 / 1000) :
    d.num.natAbs * 1000 * 2 ^ 25 + d.den < 2 ^ 25 * d.den := by
  have hq : d * 1000 * 2 ^ 25 + 1 < 2 ^ 25 := by
    obtain ⟨m, j, hm, hcase⟩ := hrep
    rw [abs_of_nonneg h0] at hcase
    have hm' : (m : ℚ) < 2 ^ 24 := by exact_mod_cast hm
    have hm0 : (0 : ℚ) ≤ m := by positivity
    rcases hcase with ⟨_, hd⟩ | ⟨_, hd⟩
    · have hnat : ((m * 2 ^ j : ℕ) : ℚ) < 1 := by
        push_cast
        rw [← hd]
        linarith
      have hz : m * 2 ^ j = 0 := by
        have : m * 2 ^ j < 1 := by exact_mod_cast hnat
        omega
      have hd0 : d = 0 := by
        rw [hd]
        exact_mod_cast hz
      rw [hd0]
      norm_num
    · by_cases hj : j ≤ 33
      · obtain ⟨i, hi⟩ : ∃ i, 33 = j + i := ⟨33 - j, by omega⟩
        have hJ : d * 2 ^ 33 = ((m * 2 ^ i : ℕ) : ℚ) := by
          rw [hi, pow_add, ← mul_assoc, hd]
          push_cast
          ring
        have hJlt : ((m * 2 ^ i : ℕ) : ℚ) * 1000 < 2 ^ 33 := by
          rw [← hJ]
          have : d * 1000 < 1 := by linarith
          nlinarith
        have hJn : (m * 2 ^ i) * 1000 < 2 ^ 33 := by exact_mod_cast hJlt
        have hJn' : (m * 2 ^ i) * 1000 ≤ 8589934000 := by omega
        have hJq : ((m * 2 ^ i : ℕ) : ℚ) * 1000 ≤ 8589934000 := by exact_mod_cast hJn'
        rw [← hJ] at hJq
        norm_num at hJq ⊢
        linarith
      · push_neg at hj
        obtain ⟨i, hi⟩ : ∃ i, j = 34 + i := ⟨j - 34, by omega⟩
        have h34 : d * 2 ^ 34 ≤ (m : ℚ) := by
          rw [← hd, hi, pow_add]
          have h1 : (1 : ℚ) ≤ 2 ^ i := one_le_pow₀ (by norm_num)
          have : 0 ≤ d * 2 ^ 34 := by positivity
          nlinarith
        have hm2 : (m : ℚ) < 16777216 := by exact_mod_cast hm
        norm_num at h34 ⊢
        linarith
  have hden : (0 : ℚ) < d.den := by exact_mod_cast d.den_pos
  have hnum : (d.num.natAbs : ℚ) = d * d.den := by
    have hn : 0 ≤ d.num := Rat.num_nonneg.mpr h0
    have h1 : (d.num.natAbs : ℚ) = (d.num : ℚ) := by
      obtain ⟨c, hc⟩ := Int.eq_ofNat_of_zero_le hn
      rw [hc]
      simp
    rw [h1]
    exact (Rat.mul_den_eq_num d).symm
  have : ((d.num.natAbs * 1000 * 2 ^ 25 + d.den : ℕ) : ℚ) < ((2 ^ 25 * d.den : ℕ) : ℚ) := by
    push_cast
    rw [hnum]
    nlinarith
  exact_mod_cast this

/-- For a float `d` with `0 ≤ d < 1 / 1000` the rounded product converts to 0. -/
theorem mulFloat_small (d : ℚ) (hrep : IsBinary32 d) (h0 : 0 ≤ d) (hlt : d < 1 / 1000) :
    floatToUint32 (mulFloat d 1000) = 0 := by
  rw [mulFloat_thousand d h0]
  exact roundToBinary32_small _ _ (binary32_small_bound d hrep h0 hlt)

/-- For a whole `n` whose product `n * 1000` is a float below `2 ^ 32`, the rounded
product converts to `1000 * n`. -/
theorem mulFloat_whole (n m j : ℕ) (hrep : n * 1000 = m * 2 ^ j) (hm : m < 2 ^ 24)
    (h : n * 1000 < 2 ^ 32) :
    floatToUint32 (mulFloat (n : ℚ) 1000) = 1000 * n := by
  rw [mulFloat_thousand _ (by positivity)]
  simp only [Rat.num_natCast, Int.natAbs_ofNat, Rat.den_natCast]
  rw [hrep] at h ⊢
  rw [roundToBinary32_exact m j hm h, ← hrep, Nat.mul_comm]

/-- The sample float `floatHundredth` as a fraction. -/
theorem floatHundredth_eq : floatHundredth = 5368709 / 536870912 := by
  rw [← Rat.num_div_den floatHundredth]
  norm_num [floatHundredth]

/-- The sample float `floatBelowThousandth` as a fraction. -/
theorem floatBelowThousandth_eq : floatBelowThousandth = 4294967 / 4294967296 := by
  rw [← Rat.num_div_den floatBelowThousandth]
  norm_num [floatBelowThousandth]

/-- Both sample floats are binary32 values. -/
theorem isBinary32_samples :
    IsBinary32 floatHundredth ∧ IsBinary32 floatBelowThousandth := by
  constructor
  · refine ⟨10737418, 30, by norm_num, Or.inr ⟨by norm_num, ?_⟩⟩
    rw [floatHundredth_eq]
    norm_num [abs_of_nonneg]
  · refine ⟨8589934, 33, by norm_num, Or.inr ⟨by norm_num, ?_⟩⟩
    rw [floatBelowThousandth_eq]
    norm_num [abs_of_nonneg]

/-- Rounded products by `1000.0f`, converted to `uint32`: `0.01f` gives 10, `0.005f`
gives 5, `2.0f` gives 2000, `134219.0f` gives 134219008, `4294968.0f` gives 512 (the
rounded product 4294967808 wraps at `2 ^ 32`), and the largest float below one
thousandth gives 0. -/
theorem mulFloat_thousand_samples :
    floatToUint32 (mulFloat floatHundredth 1000) = 10 ∧
    floatToUint32 (mulFloat { num := 5368709, den := 1073741824 } 1000) = 5 ∧
    floatToUint32 (mulFloat 2 1000) = 2000 ∧
    floatToUint32 (mulFloat 134219 1000) = 134219008 ∧
    floatToUint32 (mulFloat 4294968 1000) = 512 ∧
    floatToUint32 (mulFloat floatBelowThousandth 1000) = 0 := by
  decide

/-- The rounded product `0.01f * 1000.0f` is the float `10485760 * 2 ^ (-20)`, that is,
10. -/
theorem mulFloat_floatHundredth :
    mulFloat floatHundredth 1000 = ⟨false, 10485760, -20⟩ ∧
    (mulFloat floatHundredth 1000).toRat = 10 := by
  have h : mulFloat floatHundredth 1000 = ⟨false, 10485760, -20⟩ := by decide
  refine ⟨h, ?_⟩
  rw [h]
  norm_num [Binary32.toRat]

end Common

namespace Engines.KotOR.Functions

open Aurora.NWScript

/-- C15, counterexample: for a delay of 134219 seconds the exact product 134219000 is
below `2 ^ 32` and is its own floor, and 134219 is a whole number of seconds, yet the
enqueued command carries 134219008 ms; for the float `0.01f` the floor of the exact
product is 9 and the enqueued command carries 10 ms. -/
theorem delayCommand_delay_differs_from_exact_floor :
    (0 : ℚ) ≤ 134219 ∧ (134219 : ℚ) * 1000 < 2 ^ 32 ∧
    ⌊(134219 : ℚ) * 1000⌋ = 134219000 ∧
    (delayCommand (worldDelayOf 134219)).2.module.deferred =
      [⟨"k_ai", ⟨4, [1]⟩, some 1, some 2, 134219008⟩] ∧
    0 ≤ Common.floatHundredth ∧ Common.floatHundredth * 1000 < 2 ^ 32 ∧
    ⌊Common.floatHundredth * 1000⌋ = 9 ∧
    (delayCommand (worldDelayOf Common.floatHundredth)).2.module.deferred =
      [⟨"k_ai", ⟨4, [1]⟩, some 1, some 2, 10⟩] := by
  refine ⟨by norm_num, by norm_num, by norm_num, by decide, ?_, ?_, ?_, by decide⟩
  · rw [Common.floatHundredth_eq]; norm_num
  · rw [Common.floatHundredth_eq]; norm_num
  · rw [Common.floatHundredth_eq, Int.floor_eq_iff]; norm_num

/-- C15, amended: with a non-empty script name, a float `seconds` in parameter 0 and a
script state in parameter 1, `delayCommand` enqueues one command whose delay is the
single-precision product `seconds * 1000` converted to `uint32`. That product is the
exact product rounded to the nearest float, ties to even: it has a significand of at
most 24 bits and the exponent of the binade of the exact product, lies within half a
unit in the last place of it, and has an even significand in a tie. For `seconds ≥ 0`
with the rounded product below `2 ^ 32` the delay is the floor of the rounded product;
for every float `seconds` with `0 ≤ seconds < 1 / 1000` the delay is 0; and for every
whole number of seconds `n` with `n * 1000 < 2 ^ 32` whose product `n * 1000` is itself
a float (a significand `m` below `2 ^ 24` times a power of two) the delay is exactly
`1000 * n`. -/
theorem delayCommand_delay_rounded (w : World) (seconds : ℚ) (state : ScriptState)
    (hname : w.ctx.scriptName ≠ "")
    (h0 : w.ctx.params[0]? = some (.float seconds))
    (h1 : w.ctx.params[1]? = some (.scriptState state)) :
    delayCommand w =
      (.ok (), { w with module :=
        { deferred := w.module.deferred ++
            [⟨w.ctx.scriptName, state, w.ctx.caller, w.ctx.triggerer,
              Common.floatToUint32 (Common.mulFloat seconds 1000)⟩],
          delayScriptCalls := w.module.delayScriptCalls + 1 } }) ∧
    (|seconds * 1000| < 2 ^ 128 →
      (Common.mulFloat seconds 1000).significand ≤ 2 ^ 24 ∧
      -149 ≤ (Common.mulFloat seconds 1000).exponent ∧
      (Common.mulFloat seconds 1000).exponent ≤ 104 ∧
      2 * |(Common.mulFloat seconds 1000).toRat - seconds * 1000| ≤
        2 ^ (Common.mulFloat seconds 1000).exponent ∧
      (2 * |(Common.mulFloat seconds 1000).toRat - seconds * 1000| =
          2 ^ (Common.mulFloat seconds 1000).exponent →
        (Common.mulFloat seconds 1000).significand % 2 = 0) ∧
      ((Common.mulFloat seconds 1000).exponent = -149 ∨
        (2 : ℚ) ^ ((Common.mulFloat seconds 1000).exponent + 23) ≤ |seconds * 1000|)) ∧
    (0 ≤ seconds → (Common.mulFloat seconds 1000).toRat < 2 ^ 32 →
      (Common.floatToUint32 (Common.mulFloat seconds 1000) : ℤ) =
        ⌊(Common.mulFloat seconds 1000).toRat⌋) ∧
    (Common.IsBinary32 seconds → 0 ≤ seconds → seconds < 1 / 1000 →
      Common.floatToUint32 (Common.mulFloat seconds 1000) = 0) ∧
    (∀ n m j : ℕ, seconds = (n : ℚ) → n * 1000 = m * 2 ^ j → m < 2 ^ 24 →
      n * 1000 < 2 ^ 32 →
      Common.floatToUint32 (Common.mulFloat seconds 1000) = 1000 * n) := by
  refine ⟨?_, ?_, ?_, ?_, ?_⟩
  · simp [delayCommand, Module.delayScript, FunctionContext.getScriptName,
      FunctionContext.getParam, FunctionContext.getTriggerer, FunctionContext.getCaller,
      Variable.getScriptState, Variable.getFloat, hname, h0, h1]
  · intro hfinite
    exact Common.mulFloat_nearest seconds 1000 hfinite
  · intro hnonneg hlt
    refine Common.floatToUint32_eq_floor _ ?_ hlt
    rw [Common.mulFloat_thousand seconds hnonneg]
    rfl
  · intro hrep hnonneg hlt
    exact Common.mulFloat_small seconds hrep hnonneg hlt
  · intro n m j hn hrep hm hlt
    rw [hn]
    exact Common.mulFloat_whole n m j hrep hm hlt

/-- Witness of C15 as amended: the float `0.01f` is non-negative, its exact product by
1000 is below `2 ^ 128`, its rounded product is 10, within half a unit in the last
place of the exact product and below `2 ^ 32`, and its delay is the floor of the
rounded product; the largest float below one thousandth has delay 0; 4194304 seconds,
whose product by 1000 is the float `125 * 2 ^ 25`, have a delay of 4194304000 ms. -/
theorem delayCommand_delay_rounded_witness :
    (worldDelayOf Common.floatHundredth).ctx.scriptName ≠ "" ∧
    |Common.floatHundredth * 1000| < 2 ^ 128 ∧
    2 * |(Common.mulFloat Common.floatHundredth 1000).toRat - Common.floatHundredth * 1000| ≤
      2 ^ (Common.mulFloat Common.floatHundredth 1000).exponent ∧
    0 ≤ Common.floatHundredth ∧
    (Common.mulFloat Common.floatHundredth 1000).toRat < 2 ^ 32 ∧
    (Common.floatToUint32 (Common.mulFloat Common.floatHundredth 1000) : ℤ) =
      ⌊(Common.mulFloat Common.floatHundredth 1000).toRat⌋ ∧
    Common.IsBinary32 Common.floatBelowThousandth ∧
    0 ≤ Common.floatBelowThousandth ∧ Common.floatBelowThousandth < 1 / 1000 ∧
    Common.floatToUint32 (Common.mulFloat Common.floatBelowThousandth 1000) = 0 ∧
    4194304 * 1000 = 125 * 2 ^ 25 ∧ 125 < 2 ^ 24 ∧ 4194304 * 1000 < 2 ^ 32 ∧
    Common.floatToUint32 (Common.mulFloat ((4194304 : ℕ) : ℚ) 1000) = 1000 * 4194304 := by
  have hh0 : 0 ≤ Common.floatHundredth := by
    rw [Common.floatHundredth_eq]; norm_num
  have hh1 : (Common.mulFloat Common.floatHundredth 1000).toRat < 2 ^ 32 := by
    rw [Common.mulFloat_floatHundredth.2]; norm_num
  have hh2 : |Common.floatHundredth * 1000| < 2 ^ 128 := by
    rw [Common.floatHundredth_eq, abs_of_nonneg (by norm_num)]; norm_num
  have ht0 : 0 ≤ Common.floatBelowThousandth := by
    rw [Common.floatBelowThousandth_eq]; norm_num
  have ht1 : Common.floatBelowThousandth < 1 / 1000 := by
    rw [Common.floatBelowThousandth_eq]; norm_num
  exact ⟨by decide, hh2,
    ((delayCommand_delay_rounded (worldDelayOf Common.floatHundredth) Common.floatHundredth
      ⟨4, [1]⟩ (by decide) rfl rfl).2.1 hh2).2.2.2.1,
    hh0, hh1,
    (delayCommand_delay_rounded (worldDelayOf Common.floatHundredth) Common.floatHundredth
      ⟨4, [1]⟩ (by decide) rfl rfl).2.2.1 hh0 hh1,
    Common.isBinary32_samples.2, ht0, ht1,
    (delayCommand_delay_rounded (worldDelayOf Common.floatBelowThousandth)
      Common.floatBelowThousandth ⟨4, [1]⟩ (by decide) rfl rfl).2.2.2.1
      Common.isBinary32_samples.2 ht0 ht1,
    by norm_num, by norm_num, by norm_num,
    (delayCommand_delay_rounded (worldDelayOf ((4194304 : ℕ) : ℚ)) ((4194304 : ℕ) : ℚ)
      ⟨4, [1]⟩ (by decide) rfl rfl).2.2.2.2 4194304 125 25 rfl (by norm_num) (by norm_num)
      (by norm_num)⟩

end Engines.KotOR.Functions
